import Mathlib

/-!
# filedown: fragment planning, scheduling and merging

A shallow embedding of `download.go` (package `filedown`).

* Go `int` and `time.Duration` values are Lean `Int`s.  The range arithmetic
  of the workers is done on these unbounded integers: in the properties
  below its values lie between `-1` and the file size, so 64-bit wrap-around
  plays no role.
* `int(math.Ceil(float64(a) / float64(b)))` is modelled bit-exactly for IEEE
  binary64 with round-to-nearest-even (`ceilDivF64`).  The conversion back to
  `int` of a `NaN`, an infinity or a value outside the `int` range is
  implementation-dependent in Go; the model follows amd64, where it gives
  `-2^63` (`intIndefinite`).
* The file system is a map from fragment index to the contents of the
  fragment file `<output>_<index>`, plus the contents of the output file.
* The feeder goroutine, the workers and the three channels are a step
  relation on `Sched`.
-/

namespace Filedown

/-! ## IEEE binary64 arithmetic used by the planner -/

/-- Auxiliary recursion for `ilog2`. -/
def log2Fuel : Nat → Nat → Nat
  | 0, _ => 0
  | fuel + 1, n => if n < 2 then 0 else log2Fuel fuel (n / 2) + 1

/-- Position of the highest set bit of `n` (`0` for `n = 0`). -/
def ilog2 (n : Nat) : Nat := log2Fuel n n

/-- The natural number nearest to `num / den`, ties going to the even one. -/
def roundHalfEven (num den : Nat) : Nat :=
  let q := num / den
  let r := num % den
  if 2 * r < den then q
  else if den < 2 * r then q + 1
  else if q % 2 = 0 then q else q + 1

/-- Value of `float64(n)` for a non-negative integer `n`: a binary64 has a
53-bit significand, so `n` is kept when it is below `2^53` and is otherwise
rounded to the nearest multiple of `2^(ilog2 n - 52)`, ties to even.  The
result is again an integer. -/
def float64OfNat (n : Nat) : Nat :=
  if n < 2 ^ 53 then n
  else
    let s := ilog2 n - 52
    roundHalfEven n (2 ^ s) * 2 ^ s

/-- A positive binary64 value `sig * 2^down / 2^up`. -/
structure Quot64 where
  sig : Nat
  up : Nat
  down : Nat
deriving Repr, DecidableEq

/-- The binary64 quotient `x / y` of two positive integer-valued floats: the
exact quotient is scaled by a power of two into `[2^52, 2^53)`, rounded to
the nearest integer (ties to even), and scaled back.  For operands below
`2^64` the quotient lies in the normal range, so there is no underflow or
overflow. -/
def float64Div (x y : Nat) : Quot64 :=
  let lx := ilog2 x
  let ly := ilog2 y
  let down := lx - (52 + ly)
  let up0 := (52 + ly) - lx
  let up := if x * 2 ^ up0 < 2 ^ 52 * (y * 2 ^ down) then up0 + 1 else up0
  { sig := roundHalfEven (x * 2 ^ up) (y * 2 ^ down), up := up, down := down }

/-- The value of `math.Ceil` at a positive binary64. -/
def Quot64.ceil (v : Quot64) : Nat := (v.sig * 2 ^ v.down + 2 ^ v.up - 1) / 2 ^ v.up

/-- The value of `math.Floor` at a positive binary64. -/
def Quot64.floor (v : Quot64) : Nat := v.sig * 2 ^ v.down / 2 ^ v.up

/-- The value of `int(f)` on amd64 when `f` is a `NaN`, an infinity or lies
outside the `int` range: the conversion instruction returns `-2^63`, and Go
uses that result as it is. -/
def intIndefinite : Int := - 2 ^ 63

/-- The Go expression `int(math.Ceil(float64(a) / float64(b)))` on 64-bit
`int`s, as amd64 evaluates it.  A zero divisor gives a `NaN` (`0 / 0`) or an
infinity, whose conversion is `intIndefinite`, and so is the conversion of a
ceiling outside the `int` range. -/
def ceilDivF64 (a b : Int) : Int :=
  if b = 0 then intIndefinite
  else if a = 0 then 0
  else
    let v := float64Div (float64OfNat a.natAbs) (float64OfNat b.natAbs)
    let r : Int := if (a < 0) = (b < 0) then (v.ceil : Int) else - (v.floor : Int)
    if - 2 ^ 63 ≤ r ∧ r < 2 ^ 63 then r else intIndefinite

/-- The exact integer ceiling of `a / b` for `b > 0`. -/
def ceilDiv (a b : Int) : Int := (a + b - 1) / b

/-! ## The download descriptor -/

/-- The struct `model`. `Timeout` is a `time.Duration`, in nanoseconds. -/
structure model where
  URL : String
  Concurrency : Int
  ChunkSize : Int
  Output : String
  Timeout : Int
  filesize : Int
deriving Repr, DecidableEq

/-- The constant `time.Second`, in nanoseconds. -/
def Second : Int := 1000000000

/-- The constructor `New`: every field but the URL has its zero value. -/
def New (url : String) : model :=
  { URL := url, Concurrency := 0, ChunkSize := 0, Output := "", Timeout := 0, filesize := 0 }

/-- The setter `SetConcurrency`: stores the value as it is. -/
def model.SetConcurrency (m : model) (con : Int) : model := { m with Concurrency := con }

/-- The setter `SetChunk`: stores the value as it is. -/
def model.SetChunk (m : model) (size : Int) : model := { m with ChunkSize := size }

/-- The setter `SetOutput`. -/
def model.SetOutput (m : model) (dst : String) : model := { m with Output := dst }

/-- The setter `SetTimeout`: a duration below two seconds is replaced by five seconds. -/
def model.SetTimeout (m : model) (t : Int) : model :=
  let t := if t < 2 * Second then 5 * Second else t
  { m with Timeout := t }

/-- The timeout `Do` and every worker give to their `http.Client`
(`http.Client{Timeout: m.Timeout}`); Go reads `0` as "no timeout". -/
def model.clientTimeout (m : model) : Int := m.Timeout

/-- The planning step of `Do`: `contentLength` is the integer
`strconv.Atoi` returns for the `Content-Length` header (`0` when the header
is absent); then the concurrency and the chunk size get their defaults. -/
def model.plan (m : model) (contentLength : Int) : model :=
  let m := { m with filesize := contentLength }
  let m := if m.Concurrency < 1 then m.SetConcurrency 24 else m
  if m.ChunkSize < 1 then
    m.SetChunk (ceilDivF64 m.filesize m.Concurrency)
  else m

/-- The fragment count of `Do`:
`int(math.Ceil(float64(m.filesize) / float64(m.ChunkSize)))`. -/
def model.fragment (m : model) : Int := ceilDivF64 m.filesize m.ChunkSize

/-- The byte range `(start, end)` the worker `do` computes for the index `i`
it took from the queue. -/
def model.byteRange (m : model) (fragment i : Int) : Int × Int :=
  let start := i * m.ChunkSize
  let stop := if i < fragment - 1 then start + m.ChunkSize - 1 else m.filesize - 1
  (start, stop)

/-- Number of bytes of the range of index `i`: `end - start + 1`. -/
def model.rangeLen (m : model) (fragment i : Int) : Int :=
  (m.byteRange fragment i).2 - (m.byteRange fragment i).1 + 1

/-! ## The merge loop of `Do` -/

/-- One byte of a file. -/
abbrev Byte := UInt8

/-- The fragment files, by fragment index: `none` when
`ioutil.ReadFile("<output>_<index>")` returns an error. -/
abbrev FragFiles := Nat → Option (List Byte)

/-- The call `file.WriteAt(buf, off)` on the contents of a file: the bytes before
`off` stay (a file that is shorter is filled with zero bytes), `buf` follows,
and what lay beyond `off + len(buf)` stays. -/
def writeAt (file buf : List Byte) (off : Nat) : List Byte :=
  file.take off ++ List.replicate (off - file.length) 0 ++ buf ++ file.drop (off + buf.length)

/-- The state of the merge loop: the fragment files, the contents of the
output file and the variable `offset`. -/
structure MergeState where
  frags : FragFiles
  out : List Byte
  offset : Nat

/-- One iteration of the merge loop, for the index `x`: a fragment file that
cannot be read is skipped; otherwise its bytes are written at `offset`,
`offset` advances by their number and the fragment file is removed. -/
def mergeStep (st : MergeState) (x : Nat) : MergeState :=
  match st.frags x with
  | none => st
  | some buf =>
    { frags := fun y => if y = x then none else st.frags y
      out := writeAt st.out buf st.offset
      offset := st.offset + buf.length }

/-- The merge loop run over the indices of `xs`, from a given state. -/
def mergeFrom (st : MergeState) (xs : List Nat) : MergeState := xs.foldl mergeStep st

/-- The merge loop `for x := 0; x < fragment; x++` on the output file that
`os.Create` has just truncated. -/
def mergeLoop (frags : FragFiles) (fragment : Int) : MergeState :=
  mergeFrom { frags := frags, out := [], offset := 0 } (List.range fragment.toNat)

/-- The state in which the merge loop enters its iteration for index `x`. -/
def mergeAt (frags : FragFiles) (x : Nat) : MergeState :=
  mergeFrom { frags := frags, out := [], offset := 0 } (List.range x)

/-- The end of `Do`, from `os.Create(m.Output)` on: `create` is the error of
`os.Create`, if any; the result is the error `Do` returns, or the state the
merge loop leaves. -/
def combine (create : Option String) (frags : FragFiles) (fragment : Int) :
    Except String MergeState :=
  match create with
  | some err => .error err
  | none => .ok (mergeLoop frags fragment)

/-- The length of the output file `Do` leaves, when it returns no error. -/
def resultLength (r : Except String MergeState) : Option Nat :=
  match r with
  | .ok st => some st.out.length
  | .error _ => none

/-- No fragment file exists. -/
def noFiles : FragFiles := fun _ => none

/-- The worker `do` from `os.Create(filename)` to the two `Close` calls,
when create and copy succeed: the fragment file of index `i` is truncated
and gets the whole response body.  The code reads neither the status of the
response nor its `Content-Range` (it only logs the latter), so the body is
stored whatever its length. -/
def persist (frags : FragFiles) (i : Nat) (body : List Byte) : FragFiles :=
  fun j => if j = i then some body else frags j

/-- The fragment files holding the given contents, all present. -/
def filesOf (fs : List (List Byte)) : FragFiles := fun i => fs.get? i

/-- The fragment files holding `content i`, those with `missing i` absent. -/
def filesExcept (content : Nat → List Byte) (missing : Nat → Bool) : FragFiles :=
  fun i => if missing i then none else some (content i)

/-- The contents of the present fragment files among the indices `xs`, in the order of `xs`. -/
def presentConcat (frags : FragFiles) (xs : List Nat) : List Byte :=
  (xs.map fun i => (frags i).getD []).flatten

/-! ## The feeder, the workers and the channels -/

/-- What a worker goroutine (`do`) is doing. -/
inductive Worker where
  /-- Blocked in, or on its way to, `i := <-queue`. -/
  | idle
  /-- Took `i`; the ranged request `cli.Do(&req)` is under way. -/
  | fetching (i : Nat)
  /-- The request succeeded; `os.Create(filename)` is next. -/
  | creating (i : Nat)
  /-- The fragment file exists; `io.Copy(file, resp.Body)` is under way. -/
  | copying (i : Nat)
  /-- One of the three calls failed; the worker is at `redo <- i`. -/
  | failed (i : Nat)
  /-- Fetch, create and copy succeeded and the file is closed; the worker is at `finish <- i`. -/
  | done (i : Nat)
deriving Repr, DecidableEq

/-- The index a worker holds, if any. -/
def Worker.held : Worker → List Nat
  | .idle => []
  | .fetching i => [i]
  | .creating i => [i]
  | .copying i => [i]
  | .failed i => [i]
  | .done i => [i]

/-- The parameters of a run of `Do`: the fragment count and the concurrency. -/
structure Plan where
  fragment : Nat
  concurrency : Nat
deriving Repr, DecidableEq

/-- Capacity of `queue` and of `finish`: `m.Concurrency`. -/
def Plan.queueCap (p : Plan) : Nat := p.concurrency

/-- Capacity of `redo`: `int(math.Floor(float64(m.Concurrency)/2))`. -/
def Plan.redoCap (p : Plan) : Nat := p.concurrency / 2

/-- The state of the goroutines and channels of `Do`. -/
structure Sched where
  /-- The loop variable `i` of the feeder's first loop: the indices from `next` on are not yet published. -/
  next : Nat
  /-- The feeder's variable `j`, between `j := <-redo` and `queue <- j`. -/
  hand : Option Nat
  /-- The buffer of `queue`, oldest first. -/
  queue : List Nat
  /-- The buffer of `redo`, oldest first. -/
  redo : List Nat
  /-- The workers, one per `go m.do(request, fragment, j)`. -/
  workers : List Worker
  /-- The buffer of `finish`, oldest first. -/
  finish : List Nat
  /-- The values `Do` has received from `finish`, oldest first. -/
  received : List Nat
deriving Repr, DecidableEq

/-- The state after `Do` has made the channels and started the goroutines. -/
def Sched.init (p : Plan) : Sched :=
  { next := 0, hand := none, queue := [], redo := [],
    workers := List.replicate p.concurrency Worker.idle, finish := [], received := [] }

/-- The indices the feeder has not yet published. -/
def Sched.unpublished (p : Plan) (s : Sched) : List Nat := List.range' s.next (p.fragment - s.next)

/-- The indices in flight at the workers. -/
def Sched.inFlight (s : Sched) : List Nat := (s.workers.map Worker.held).flatten

/-- The signals sent on `finish` so far, oldest first. -/
def Sched.signals (s : Sched) : List Nat := s.received ++ s.finish

/-- The five places of the specification: not yet published, work queue, in
flight at a worker, retry channel, completion signals sent. -/
def Sched.fivePlaces (p : Plan) (s : Sched) : List Nat :=
  s.unpublished p ++ s.queue ++ s.inFlight ++ s.redo ++ s.signals

/-- The five places together with the feeder's variable `j`. -/
def Sched.places (p : Plan) (s : Sched) : List Nat :=
  s.hand.toList ++ s.fivePlaces p

/-- One atomic step of one goroutine of `Do`. -/
inductive Step (p : Plan) : Sched → Sched → Prop where
  /-- Feeder, first loop: `queue <- i; i++`, when `queue` has room. -/
  | publish (s : Sched) (h1 : s.next < p.fragment) (h2 : s.queue.length < p.queueCap) :
      Step p s { s with next := s.next + 1, queue := s.queue ++ [s.next] }
  /-- Feeder, second loop: `j := <-redo` from the buffer of `redo`. -/
  | feederRecv (s : Sched) (j : Nat) (rest : List Nat) (h1 : p.fragment ≤ s.next)
      (h2 : s.hand = none) (h3 : s.redo = j :: rest) :
      Step p s { s with hand := some j, redo := rest }
  /-- Feeder, second loop: `j := <-redo` meeting a worker blocked at `redo <- i`
  while the buffer of `redo` is empty (the only way when its capacity is `0`). -/
  | handOver (s : Sched) (i : Nat) (pre post : List Worker) (h1 : p.fragment ≤ s.next)
      (h2 : s.hand = none) (h3 : s.redo = []) (h4 : s.workers = pre ++ Worker.failed i :: post) :
      Step p s { s with hand := some i, workers := pre ++ Worker.idle :: post }
  /-- Feeder, second loop: `queue <- j`, when `queue` has room. -/
  | feederSend (s : Sched) (j : Nat) (h1 : s.hand = some j) (h2 : s.queue.length < p.queueCap) :
      Step p s { s with hand := none, queue := s.queue ++ [j] }
  /-- Worker: `i := <-queue`. -/
  | take (s : Sched) (i : Nat) (rest : List Nat) (pre post : List Worker)
      (h1 : s.queue = i :: rest) (h2 : s.workers = pre ++ Worker.idle :: post) :
      Step p s { s with queue := rest, workers := pre ++ Worker.fetching i :: post }
  /-- Worker: `cli.Do(&req)` returns an error. -/
  | fetchFail (s : Sched) (i : Nat) (pre post : List Worker)
      (h : s.workers = pre ++ Worker.fetching i :: post) :
      Step p s { s with workers := pre ++ Worker.failed i :: post }
  /-- Worker: `cli.Do(&req)` returns a response. -/
  | fetchOk (s : Sched) (i : Nat) (pre post : List Worker)
      (h : s.workers = pre ++ Worker.fetching i :: post) :
      Step p s { s with workers := pre ++ Worker.creating i :: post }
  /-- Worker: `os.Create(filename)` returns an error. -/
  | createFail (s : Sched) (i : Nat) (pre post : List Worker)
      (h : s.workers = pre ++ Worker.creating i :: post) :
      Step p s { s with workers := pre ++ Worker.failed i :: post }
  /-- Worker: `os.Create(filename)` succeeds. -/
  | createOk (s : Sched) (i : Nat) (pre post : List Worker)
      (h : s.workers = pre ++ Worker.creating i :: post) :
      Step p s { s with workers := pre ++ Worker.copying i :: post }
  /-- Worker: `io.Copy(file, resp.Body)` returns an error. -/
  | copyFail (s : Sched) (i : Nat) (pre post : List Worker)
      (h : s.workers = pre ++ Worker.copying i :: post) :
      Step p s { s with workers := pre ++ Worker.failed i :: post }
  /-- Worker: `io.Copy(file, resp.Body)` succeeds; file and body are closed. -/
  | copyOk (s : Sched) (i : Nat) (pre post : List Worker)
      (h : s.workers = pre ++ Worker.copying i :: post) :
      Step p s { s with workers := pre ++ Worker.done i :: post }
  /-- Worker: `redo <- i; continue`, when the buffer of `redo` has room. -/
  | pushRedo (s : Sched) (i : Nat) (pre post : List Worker)
      (h1 : s.workers = pre ++ Worker.failed i :: post) (h2 : s.redo.length < p.redoCap) :
      Step p s { s with redo := s.redo ++ [i], workers := pre ++ Worker.idle :: post }
  /-- Worker: `finish <- i`, when the buffer of `finish` has room. -/
  | pushFinish (s : Sched) (i : Nat) (pre post : List Worker)
      (h1 : s.workers = pre ++ Worker.done i :: post) (h2 : s.finish.length < p.queueCap) :
      Step p s { s with finish := s.finish ++ [i], workers := pre ++ Worker.idle :: post }
  /-- The goroutine of `Do`: `_ = <-finish; k++`, while `k < fragment`. -/
  | mainRecv (s : Sched) (i : Nat) (rest : List Nat) (h1 : s.received.length < p.fragment)
      (h2 : s.finish = i :: rest) :
      Step p s { s with finish := rest, received := s.received ++ [i] }

/-- The states the system can reach from its initial state. -/
inductive Reachable (p : Plan) : Sched → Prop where
  | init : Reachable p (Sched.init p)
  | step (s t : Sched) (hs : Reachable p s) (ht : Step p s t) : Reachable p t

/-! ## Sample inputs -/

/-- Three fragments of 10, 20 and 5 bytes. -/
def sampleFragments : List (List Byte) :=
  [List.replicate 10 1, List.replicate 20 2, List.replicate 5 3]

/-- Fragment contents of 4 bytes each, the bytes of fragment `i` being `i`. -/
def sampleContent : Nat → List Byte := fun i => List.replicate 4 (UInt8.ofNat i)

/-- Only the fragment file of index 1 is missing. -/
def sampleMissing : Nat → Bool := fun i => i == 1

/-- The descriptor of the scenario `S = 100`, `C = 40`, concurrency 4. -/
def sampleModel : model := ((New "http://host/file").SetConcurrency 4).SetChunk 40

/-- The planned descriptor of the scenario. -/
def samplePlanned : model := { sampleModel with filesize := 100 }

/-- Fragment files of 40, 40 and 20 bytes. -/
def sampleFiles : FragFiles :=
  filesOf [List.replicate 40 7, List.replicate 40 8, List.replicate 20 9]

/-- A descriptor whose probed size, `2^55 + 5`, is not a binary64, with chunk size 1. -/
def hugeModel : model :=
  { URL := "http://host/file", Concurrency := 24, ChunkSize := 1, Output := "out",
    Timeout := 0, filesize := 36028797018963973 }

/-- The descriptor `Do` plans for the size `36036487095954653` when the
concurrency is 7 and the chunk size is unset. -/
def samplePlanned7 : model :=
  { URL := "http://host/file", Concurrency := 7, ChunkSize := 5148069585136379, Output := "",
    Timeout := 0, filesize := 36036487095954653 }

/-- The descriptor planned for the largest `Content-Length` the HTTP client
accepts, `2^63 - 1`, with chunk size 1. -/
def maxModel : model := ((New "http://host/file").SetChunk 1).plan 9223372036854775807

/-- A resource of 12 bytes. -/
def wholeResource : List Byte := List.replicate 12 5

/-- The descriptor planned for a resource of 12 bytes with chunk size 4 and concurrency 3. -/
def smallModel : model :=
  (((New "http://host/file").SetConcurrency 3).SetChunk 4).plan 12

/-- The fragment files after the workers of the indices 0 and 2 stored the
bodies of a server that ignores `Range` and sends the whole resource each
time; the fragment file of index 1 is missing. -/
def unrangedFiles : FragFiles := persist (persist noFiles 0 wholeResource) 2 wholeResource

/-- One fragment, one worker: `redo` has capacity 0. -/
def samplePlan : Plan := { fragment := 1, concurrency := 1 }

/-- The state of `samplePlan` in which the only worker has failed on index 0
and has handed it to the feeder, which has not yet put it back on `queue`. -/
def heldByFeeder : Sched :=
  { next := 1, hand := some 0, queue := [], redo := [], workers := [Worker.idle],
    finish := [], received := [] }

/-! ## Facts about the binary64 model -/

theorem log2Fuel_spec (fuel n : Nat) (hn : 1 ≤ n) (hf : n ≤ fuel) :
    2 ^ log2Fuel fuel n ≤ n ∧ n < 2 ^ (log2Fuel fuel n + 1) := by
  induction fuel generalizing n with
  | zero => omega
  | succ fuel ih =>
    unfold log2Fuel
    by_cases h2 : n < 2
    · simp only [h2, if_true]
      constructor
      · simpa using hn
      · simpa using h2
    · simp only [h2, if_false]
      have h1 : 1 ≤ n / 2 := by omega
      have h3 : n / 2 ≤ fuel := by omega
      obtain ⟨hlo, hhi⟩ := ih (n / 2) h1 h3
      constructor
      · rw [pow_succ]; omega
      · rw [pow_succ]; omega

theorem ilog2_le (n : Nat) (hn : 1 ≤ n) : 2 ^ ilog2 n ≤ n :=
  (log2Fuel_spec n n hn le_rfl).1

theorem lt_ilog2 (n : Nat) (hn : 1 ≤ n) : n < 2 ^ (ilog2 n + 1) :=
  (log2Fuel_spec n n hn le_rfl).2

theorem ilog2_lt_of_lt_pow (n k : Nat) (hn : 1 ≤ n) (h : n < 2 ^ k) : ilog2 n < k := by
  by_contra hc
  have hk : k ≤ ilog2 n := Nat.le_of_not_lt hc
  have h1 : 2 ^ k ≤ 2 ^ ilog2 n := Nat.pow_le_pow_right (by decide) hk
  have h2 := ilog2_le n hn
  omega

theorem roundHalfEven_ge (N y : Nat) : N / y ≤ roundHalfEven N y := by
  unfold roundHalfEven
  simp only
  split_ifs <;> omega

theorem roundHalfEven_le (N y M : Nat) (hy : 0 < y) (h : N ≤ M * y) :
    roundHalfEven N y ≤ M := by
  have hdm : y * (N / y) + N % y = N := Nat.div_add_mod N y
  have hq : N / y ≤ M := by
    have : N / y ≤ M * y / y := Nat.div_le_div_right h
    rwa [Nat.mul_div_cancel _ hy] at this
  by_cases hr : N % y = 0
  · unfold roundHalfEven
    simp only [hr]
    split_ifs <;> omega
  · have hlt : N / y < M := by
      by_contra hc
      have hM : M ≤ N / y := Nat.le_of_not_lt hc
      have : y * M ≤ y * (N / y) := Nat.mul_le_mul_left y hM
      have : M * y = y * M := Nat.mul_comm _ _
      omega
    unfold roundHalfEven
    simp only
    split_ifs <;> omega

theorem lt_roundHalfEven (N y L K : Nat) (hy : 0 < y) (h : L * y + K ≤ N)
    (hK : y < 2 * K) : L < roundHalfEven N y := by
  have hdm : y * (N / y) + N % y = N := Nat.div_add_mod N y
  have hq : L ≤ N / y := by
    rw [Nat.le_div_iff_mul_le hy]; omega
  by_cases hl : L < N / y
  · exact lt_of_lt_of_le hl (roundHalfEven_ge N y)
  · have hLq : N / y = L := by omega
    have hyL : y * L = L * y := Nat.mul_comm _ _
    rw [hLq] at hdm
    have hr : K ≤ N % y := by omega
    unfold roundHalfEven
    simp only [hLq]
    split_ifs <;> omega

theorem ceil_of_bounds (m K c : Nat) (hK : 0 < K) (hlo : c * K < m) (hhi : m ≤ (c + 1) * K) :
    (m + K - 1) / K = c + 1 := by
  apply Nat.div_eq_of_lt_le
  · have : (c + 1) * K = c * K + K := by ring
    omega
  · have : (c + 1 + 1) * K = c * K + K + K := by ring
    have : (c + 1) * K = c * K + K := by ring
    omega

theorem float64Div_ceil_exact (x y : Nat) (hx : 1 ≤ x) (hx53 : x < 2 ^ 53) (hy : 1 ≤ y) :
    (float64Div x y).ceil = (x - 1) / y + 1 := by
  have hlx : ilog2 x < 53 := ilog2_lt_of_lt_pow x 53 hx hx53
  have hxlo := ilog2_le x hx
  have hyhi := lt_ilog2 y hy
  have hdown : ilog2 x - (52 + ilog2 y) = 0 := by omega
  -- the scaling exponent and the normalisation bound
  obtain ⟨u, hu, hnorm⟩ : ∃ u, (float64Div x y) =
      { sig := roundHalfEven (x * 2 ^ u) y, up := u, down := 0 } ∧ 2 ^ 52 * y ≤ x * 2 ^ u := by
    by_cases hc : x * 2 ^ ((52 + ilog2 y) - ilog2 x) < 2 ^ 52 * y
    · refine ⟨(52 + ilog2 y) - ilog2 x + 1, ?_, ?_⟩
      · simp only [float64Div, hdown, pow_zero, mul_one, hc, if_true]
      · have h1 : 2 ^ ilog2 x * 2 ^ ((52 + ilog2 y) - ilog2 x) = 2 ^ (52 + ilog2 y) := by
          rw [← pow_add]; congr 1; omega
        have h2 : 2 ^ ilog2 x * 2 ^ ((52 + ilog2 y) - ilog2 x)
            ≤ x * 2 ^ ((52 + ilog2 y) - ilog2 x) := Nat.mul_le_mul_right _ hxlo
        have h3 : (2:Nat) ^ (52 + ilog2 y) = 2 ^ 52 * 2 ^ ilog2 y := pow_add 2 52 (ilog2 y)
        have h4 : 2 ^ 52 * y < 2 ^ 52 * 2 ^ (ilog2 y + 1) :=
          (Nat.mul_lt_mul_left (by positivity)).mpr hyhi
        have h5 : (2:Nat) ^ (ilog2 y + 1) = 2 ^ ilog2 y * 2 := pow_succ 2 (ilog2 y)
        have h6 : x * 2 ^ ((52 + ilog2 y) - ilog2 x + 1)
            = x * 2 ^ ((52 + ilog2 y) - ilog2 x) * 2 := by rw [pow_succ, Nat.mul_assoc]
        rw [h6]
        rw [h5] at h4
        nlinarith
    · refine ⟨(52 + ilog2 y) - ilog2 x, ?_, ?_⟩
      · simp only [float64Div, hdown, pow_zero, mul_one, hc, if_false]
      · exact Nat.le_of_not_lt hc
  have hKpos : 0 < 2 ^ u := by positivity
  have hyK : y < 2 * 2 ^ u := by
    have h1 : x * 2 ^ u < 2 ^ 53 * 2 ^ u := Nat.mul_lt_mul_of_lt_of_le hx53 (le_refl _) hKpos
    have h2 : (2:Nat) ^ 53 = 2 ^ 52 * 2 := by norm_num
    rw [h2] at h1
    have h3 : 2 ^ 52 * y < 2 ^ 52 * (2 * 2 ^ u) := by
      calc 2 ^ 52 * y ≤ x * 2 ^ u := hnorm
        _ < 2 ^ 52 * 2 * 2 ^ u := h1
        _ = 2 ^ 52 * (2 * 2 ^ u) := by ring
    exact Nat.lt_of_mul_lt_mul_left h3
  have hdm : y * ((x - 1) / y) + (x - 1) % y = x - 1 := Nat.div_add_mod (x - 1) y
  have hmod : (x - 1) % y < y := Nat.mod_lt _ hy
  -- the rounded significand lies in `((c - 1) * K, c * K]`
  have hlo : (x - 1) / y * 2 ^ u < roundHalfEven (x * 2 ^ u) y := by
    apply lt_roundHalfEven (x * 2 ^ u) y ((x - 1) / y * 2 ^ u) (2 ^ u) hy _ hyK
    have h1 : (x - 1) / y * y + 1 ≤ x := by
      have : (x - 1) / y * y = y * ((x - 1) / y) := Nat.mul_comm _ _
      omega
    calc (x - 1) / y * 2 ^ u * y + 2 ^ u = ((x - 1) / y * y + 1) * 2 ^ u := by ring
      _ ≤ x * 2 ^ u := Nat.mul_le_mul_right _ h1
  have hhi : roundHalfEven (x * 2 ^ u) y ≤ ((x - 1) / y + 1) * 2 ^ u := by
    apply roundHalfEven_le (x * 2 ^ u) y _ hy
    have h1 : x ≤ ((x - 1) / y + 1) * y := by
      have : ((x - 1) / y + 1) * y = y * ((x - 1) / y) + y := by ring
      omega
    calc x * 2 ^ u ≤ ((x - 1) / y + 1) * y * 2 ^ u := Nat.mul_le_mul_right _ h1
      _ = ((x - 1) / y + 1) * 2 ^ u * y := by ring
  rw [hu]
  simp only [Quot64.ceil, pow_zero, mul_one]
  exact ceil_of_bounds _ _ _ hKpos hlo hhi

theorem float64OfNat_of_lt (n : Nat) (h : n < 2 ^ 53) : float64OfNat n = n := by
  unfold float64OfNat
  rw [if_pos h]

theorem float64OfNat_ge (n : Nat) (h : 2 ^ 53 ≤ n) : 2 ^ 53 ≤ float64OfNat n := by
  have hn : 1 ≤ n := le_trans (by norm_num) h
  have hlo := ilog2_le n hn
  have hhi := lt_ilog2 n hn
  have hl : 53 ≤ ilog2 n := by
    by_contra hc
    have h1 : ilog2 n + 1 ≤ 53 := by omega
    have h2 : 2 ^ (ilog2 n + 1) ≤ 2 ^ 53 := Nat.pow_le_pow_right (by decide) h1
    omega
  have hnot : ¬ n < 2 ^ 53 := Nat.not_lt.mpr h
  simp only [float64OfNat, hnot, if_false]
  have hsplit : 2 ^ ilog2 n = 2 ^ 52 * 2 ^ (ilog2 n - 52) := by
    rw [← pow_add]; congr 1; omega
  have hq : 2 ^ 52 ≤ n / 2 ^ (ilog2 n - 52) := by
    rw [Nat.le_div_iff_mul_le (by positivity)]
    omega
  have hr := roundHalfEven_ge n (2 ^ (ilog2 n - 52))
  have hs : 2 ≤ 2 ^ (ilog2 n - 52) := by
    calc 2 = 2 ^ 1 := by norm_num
      _ ≤ 2 ^ (ilog2 n - 52) := Nat.pow_le_pow_right (by decide) (by omega)
  calc 2 ^ 53 = 2 ^ 52 * 2 := by norm_num
    _ ≤ roundHalfEven n (2 ^ (ilog2 n - 52)) * 2 ^ (ilog2 n - 52) :=
      Nat.mul_le_mul (le_trans hq hr) hs

/-- Below `2^53` the float computation of `Do` is the exact integer ceiling. -/
theorem ceilDivF64_exact (a b : Int) (ha : 0 ≤ a) (ha53 : a < 2 ^ 53) (hb : 1 ≤ b) :
    ceilDivF64 a b = ceilDiv a b := by
  obtain ⟨x, rfl⟩ := Int.eq_ofNat_of_zero_le ha
  obtain ⟨y, rfl⟩ := Int.eq_ofNat_of_zero_le (le_trans (by norm_num) hb)
  have hy : 1 ≤ y := by exact_mod_cast hb
  have hx53 : x < 2 ^ 53 := by exact_mod_cast ha53
  have hbne : ¬ ((y : Int) = 0) := by omega
  by_cases hx0 : x = 0
  · subst hx0
    have : ((0 : Nat) : Int) + (y : Int) - 1 = ((y - 1 : Nat) : Int) := by omega
    simp only [ceilDivF64, hbne, if_false, Nat.cast_zero, if_true, ceilDiv]
    rw [zero_add]
    exact (Int.ediv_eq_zero_of_lt (by omega) (by omega)).symm
  · have hx : 1 ≤ x := Nat.one_le_iff_ne_zero.mpr hx0
    have hane : ¬ ((x : Int) = 0) := by omega
    have hfy : 1 ≤ float64OfNat y := by
      by_cases hy53 : y < 2 ^ 53
      · rw [float64OfNat_of_lt y hy53]; exact hy
      · exact le_trans (by norm_num) (float64OfNat_ge y (Nat.le_of_not_lt hy53))
    have hceil := float64Div_ceil_exact x (float64OfNat y) hx hx53 hfy
    have hquot : (x - 1) / float64OfNat y = (x - 1) / y := by
      by_cases hy53 : y < 2 ^ 53
      · rw [float64OfNat_of_lt y hy53]
      · have h1 := float64OfNat_ge y (Nat.le_of_not_lt hy53)
        rw [Nat.div_eq_of_lt (by omega), Nat.div_eq_of_lt (by omega)]
    have hsign : ((x : Int) < 0) = ((y : Int) < 0) := by
      have h1 : ¬ ((x : Int) < 0) := by omega
      have h2 : ¬ ((y : Int) < 0) := by omega
      simp [h1, h2]
    have hle : (x - 1) / y ≤ x := le_trans (Nat.div_le_self _ _) (Nat.sub_le _ _)
    have hrange : -2 ^ 63 ≤ (((x - 1) / y + 1 : Nat) : Int) ∧
        (((x - 1) / y + 1 : Nat) : Int) < 2 ^ 63 := by
      constructor
      · have : (0 : Int) ≤ (((x - 1) / y + 1 : Nat) : Int) := Int.natCast_nonneg _
        omega
      · have : (((x - 1) / y + 1 : Nat) : Int) ≤ (x : Int) + 1 := by exact_mod_cast Nat.succ_le_succ hle
        have : (x : Int) < 2 ^ 53 := ha53
        omega
    simp only [ceilDivF64, hbne, hane, if_false, Int.natAbs_ofNat, float64OfNat_of_lt x hx53,
      hceil, hquot, hsign, if_true, hrange, and_self, ceilDiv]
    have h1 : (x : Int) + (y : Int) - 1 = ((x - 1 : Nat) : Int) + (y : Int) := by omega
    rw [h1, Int.add_ediv_of_dvd_right (dvd_refl _), Int.ediv_self (by omega)]
    push_cast
    rfl

/-- A positive numerator and denominator never give a count below one:
binary64 division of such operands does not round to zero. -/
theorem float64Div_sig_pos (x y : Nat) (hx : 1 ≤ x) (hy : 1 ≤ y) :
    1 ≤ (float64Div x y).ceil := by
  have hxlo := ilog2_le x hx
  have hyhi := lt_ilog2 y hy
  -- before the normalisation step the scaled numerator already covers the denominator
  have hbase : y * 2 ^ (ilog2 x - (52 + ilog2 y)) ≤ x * 2 ^ ((52 + ilog2 y) - ilog2 x) := by
    by_cases hd : ilog2 x ≤ 52 + ilog2 y
    · have h0 : ilog2 x - (52 + ilog2 y) = 0 := by omega
      rw [h0, pow_zero, mul_one]
      have h1 : 2 ^ ilog2 x * 2 ^ ((52 + ilog2 y) - ilog2 x) = 2 ^ (52 + ilog2 y) := by
        rw [← pow_add]; congr 1; omega
      have h2 : 2 ^ ilog2 x * 2 ^ ((52 + ilog2 y) - ilog2 x)
          ≤ x * 2 ^ ((52 + ilog2 y) - ilog2 x) := Nat.mul_le_mul_right _ hxlo
      have h3 : (2:Nat) ^ (ilog2 y + 1) ≤ 2 ^ (52 + ilog2 y) :=
        Nat.pow_le_pow_right (by decide) (by omega)
      omega
    · have h0 : (52 + ilog2 y) - ilog2 x = 0 := by omega
      rw [h0, pow_zero, mul_one]
      have h1 : 2 ^ (ilog2 y + 1) * 2 ^ (ilog2 x - (52 + ilog2 y)) ≤ 2 ^ ilog2 x := by
        rw [← pow_add]
        exact Nat.pow_le_pow_right (by decide) (by omega)
      have h2 : y * 2 ^ (ilog2 x - (52 + ilog2 y))
          ≤ 2 ^ (ilog2 y + 1) * 2 ^ (ilog2 x - (52 + ilog2 y)) :=
        Nat.mul_le_mul_right _ (Nat.le_of_lt hyhi)
      omega
  obtain ⟨u, hu, hle⟩ : ∃ u, float64Div x y =
      { sig := roundHalfEven (x * 2 ^ u) (y * 2 ^ (ilog2 x - (52 + ilog2 y))), up := u,
        down := ilog2 x - (52 + ilog2 y) } ∧
      y * 2 ^ (ilog2 x - (52 + ilog2 y)) ≤ x * 2 ^ u := by
    by_cases hc : x * 2 ^ ((52 + ilog2 y) - ilog2 x)
        < 2 ^ 52 * (y * 2 ^ (ilog2 x - (52 + ilog2 y)))
    · refine ⟨(52 + ilog2 y) - ilog2 x + 1, ?_, ?_⟩
      · simp only [float64Div, hc, if_true]
      · rw [pow_succ, ← Nat.mul_assoc]
        omega
    · refine ⟨(52 + ilog2 y) - ilog2 x, ?_, hbase⟩
      simp only [float64Div, hc, if_false]
  have hden : 0 < y * 2 ^ (ilog2 x - (52 + ilog2 y)) := by positivity
  have hsig : 1 ≤ roundHalfEven (x * 2 ^ u) (y * 2 ^ (ilog2 x - (52 + ilog2 y))) :=
    le_trans ((Nat.le_div_iff_mul_le hden).mpr (by simpa using hle)) (roundHalfEven_ge _ _)
  rw [hu]
  simp only [Quot64.ceil]
  have hup : 0 < 2 ^ u := by positivity
  have hdown : 0 < 2 ^ (ilog2 x - (52 + ilog2 y)) := by positivity
  rw [Nat.le_div_iff_mul_le hup]
  have : 1 ≤ roundHalfEven (x * 2 ^ u) (y * 2 ^ (ilog2 x - (52 + ilog2 y)))
      * 2 ^ (ilog2 x - (52 + ilog2 y)) := Nat.mul_le_mul hsig hdown
  omega

theorem float64OfNat_pos (n : Nat) (h : 1 ≤ n) : 1 ≤ float64OfNat n := by
  by_cases h53 : n < 2 ^ 53
  · rw [float64OfNat_of_lt n h53]; exact h
  · exact le_trans (by norm_num) (float64OfNat_ge n (Nat.le_of_not_lt h53))

/-- For a positive size and a positive divisor the float computation of
`Do` yields at least one, unless the ceiling leaves the `int` range and the
conversion yields `intIndefinite`. -/
theorem ceilDivF64_pos (a b : Int) (ha : 1 ≤ a) (hb : 1 ≤ b) :
    1 ≤ ceilDivF64 a b ∨ ceilDivF64 a b = intIndefinite := by
  obtain ⟨x, rfl⟩ := Int.eq_ofNat_of_zero_le (le_trans (by norm_num) ha)
  obtain ⟨y, rfl⟩ := Int.eq_ofNat_of_zero_le (le_trans (by norm_num) hb)
  have hx : 1 ≤ x := by exact_mod_cast ha
  have hy : 1 ≤ y := by exact_mod_cast hb
  have hbne : ¬ ((y : Int) = 0) := by omega
  have hane : ¬ ((x : Int) = 0) := by omega
  have hsign : ((x : Int) < 0) = ((y : Int) < 0) := by
    have h1 : ¬ ((x : Int) < 0) := by omega
    have h2 : ¬ ((y : Int) < 0) := by omega
    simp [h1, h2]
  have hpos := float64Div_sig_pos (float64OfNat x) (float64OfNat y)
    (float64OfNat_pos x hx) (float64OfNat_pos y hy)
  simp only [ceilDivF64, hbne, hane, if_false, Int.natAbs_ofNat, hsign, if_true]
  split_ifs
  · left
    exact_mod_cast hpos
  · right
    rfl

/-- The model on well-known binary64 values: `2^53 + 1` converts to `2^53`
(a tie, resolved to the even significand), `2^53 + 3` to `2^53 + 4`, the
largest `int` to `2^63`; `1 / 3` and `2 / 3` round up to one, `7 / 2` to
four; a zero divisor and a quotient beyond the `int` range give `-2^63`. -/
theorem binary64_examples :
    float64OfNat 9007199254740993 = 9007199254740992 ∧
    float64OfNat 9007199254740995 = 9007199254740996 ∧
    float64OfNat 9223372036854775807 = 9223372036854775808 ∧
    ceilDivF64 1 3 = 1 ∧ ceilDivF64 2 3 = 1 ∧ ceilDivF64 7 2 = 4 ∧
    ceilDivF64 100 40 = 3 ∧ ceilDivF64 0 24 = 0 ∧ ceilDivF64 (-7) 2 = -3 ∧
    ceilDivF64 0 0 = -9223372036854775808 ∧ ceilDivF64 5 0 = -9223372036854775808 ∧
    ceilDivF64 9223372036854775807 1 = -9223372036854775808 := by
  decide

/-- With size 0 and the chunk size unset the chunk size becomes 0 and the
fragment count is the conversion of a `NaN`: `-2^63`, so no fragment is
published, awaited or merged. -/
theorem plan_size_zero :
    ((New "http://host/file").plan 0).ChunkSize = 0 ∧
    ((New "http://host/file").plan 0).fragment = -9223372036854775808 := by
  decide

/-! ## Facts about the merge loop -/

theorem writeAt_end (file buf : List Byte) : writeAt file buf file.length = file ++ buf := by
  simp [writeAt]

theorem presentConcat_congr (f g : FragFiles) (xs : List Nat) (h : ∀ x ∈ xs, f x = g x) :
    presentConcat f xs = presentConcat g xs := by
  unfold presentConcat
  congr 1
  apply List.map_congr_left
  intro x hx
  rw [h x hx]

theorem presentConcat_cons (f : FragFiles) (x : Nat) (xs : List Nat) :
    presentConcat f (x :: xs) = (f x).getD [] ++ presentConcat f xs := by
  simp [presentConcat]

theorem presentConcat_append (f : FragFiles) (xs ys : List Nat) :
    presentConcat f (xs ++ ys) = presentConcat f xs ++ presentConcat f ys := by
  simp [presentConcat]

/-- The merge loop appends the present fragments in the order of the indices
and keeps `offset` at the end of the output file. -/
theorem mergeFrom_spec (xs : List Nat) (st : MergeState) (hnd : xs.Nodup)
    (hoff : st.offset = st.out.length) :
    (mergeFrom st xs).out = st.out ++ presentConcat st.frags xs ∧
    (mergeFrom st xs).offset = (mergeFrom st xs).out.length := by
  induction xs generalizing st with
  | nil => simp [mergeFrom, presentConcat, hoff]
  | cons x xs ih =>
    have hx : x ∉ xs := (List.nodup_cons.mp hnd).1
    have hxs : xs.Nodup := (List.nodup_cons.mp hnd).2
    have hstep : mergeFrom st (x :: xs) = mergeFrom (mergeStep st x) xs := by
      simp [mergeFrom]
    rw [hstep, presentConcat_cons]
    cases hfx : st.frags x with
    | none =>
      have hst : mergeStep st x = st := by simp [mergeStep, hfx]
      rw [hst]
      obtain ⟨h1, h2⟩ := ih st hxs hoff
      refine ⟨?_, h2⟩
      rw [h1]; simp
    | some buf =>
      have hout : (mergeStep st x).out = st.out ++ buf := by
        simp [mergeStep, hfx, hoff, writeAt_end]
      have hoff' : (mergeStep st x).offset = (mergeStep st x).out.length := by
        rw [hout]; simp [mergeStep, hfx, hoff]
      have hfr : presentConcat (mergeStep st x).frags xs = presentConcat st.frags xs := by
        apply presentConcat_congr
        intro y hy
        have hyx : y ≠ x := fun h => hx (h ▸ hy)
        simp [mergeStep, hfx, hyx]
      obtain ⟨h1, h2⟩ := ih (mergeStep st x) hxs hoff'
      refine ⟨?_, h2⟩
      rw [h1, hout, hfr]; simp

theorem mergeAt_out (frags : FragFiles) (x : Nat) :
    (mergeAt frags x).out = presentConcat frags (List.range x) := by
  have h := (mergeFrom_spec (List.range x) { frags := frags, out := [], offset := 0 }
    (List.nodup_range x) rfl).1
  simpa [mergeAt] using h

theorem mergeAt_offset (frags : FragFiles) (x : Nat) :
    (mergeAt frags x).offset = (presentConcat frags (List.range x)).length := by
  have h := (mergeFrom_spec (List.range x) { frags := frags, out := [], offset := 0 }
    (List.nodup_range x) rfl).2
  rw [← mergeAt_out]
  simpa [mergeAt] using h

theorem mergeLoop_out (frags : FragFiles) (n : Int) :
    (mergeLoop frags n).out = presentConcat frags (List.range n.toNat) :=
  mergeAt_out frags n.toNat

theorem mergeLoop_offset (frags : FragFiles) (n : Int) :
    (mergeLoop frags n).offset = (mergeLoop frags n).out.length := by
  rw [mergeLoop_out]
  exact mergeAt_offset frags n.toNat

/-- Where the bytes of a present fragment lie in the merged output. -/
theorem presentConcat_slice (frags : FragFiles) (n i : Nat) (buf : List Byte) (hi : i < n)
    (hbuf : frags i = some buf) :
    ((presentConcat frags (List.range n)).drop
      (presentConcat frags (List.range i)).length).take buf.length = buf := by
  have hsplit : List.range n = List.range i ++ i :: List.range' (i + 1) (n - i - 1) := by
    rw [List.range_eq_range', List.range_eq_range']
    have h1 : List.range' 0 i ++ List.range' (0 + i) (n - i - 1 + 1) = List.range' 0 n := by
      rw [List.range'_append_1]
      congr 1
      omega
    rw [← h1, List.range'_succ, Nat.zero_add]
  rw [hsplit, presentConcat_append, presentConcat_cons, hbuf]
  simp

theorem presentConcat_length_const (frags : FragFiles) (c i : Nat)
    (h : ∀ j, j < i → ∃ buf, frags j = some buf ∧ buf.length = c) :
    (presentConcat frags (List.range i)).length = i * c := by
  induction i with
  | zero => simp [presentConcat]
  | succ i ih =>
    obtain ⟨buf, hb, hl⟩ := h i (Nat.lt_succ_self i)
    rw [List.range_succ, presentConcat_append, List.length_append,
      ih (fun j hj => h j (Nat.lt_succ_of_lt hj))]
    simp [presentConcat, hb, hl]
    ring

theorem mergeFrom_frags (xs : List Nat) (st : MergeState) (y : Nat) :
    (mergeFrom st xs).frags y = if y ∈ xs then none else st.frags y := by
  induction xs generalizing st with
  | nil => simp [mergeFrom]
  | cons x xs ih =>
    have hstep : mergeFrom st (x :: xs) = mergeFrom (mergeStep st x) xs := by
      simp [mergeFrom]
    rw [hstep, ih]
    by_cases hy : y ∈ xs
    · simp [hy]
    · by_cases hyx : y = x
      · subst hyx
        cases hfx : st.frags y <;> simp [mergeStep, hfx, hy]
      · cases hfx : st.frags x <;> simp [mergeStep, hfx, hy, hyx]

theorem mergeAt_succ (frags : FragFiles) (x : Nat) :
    mergeAt frags (x + 1) = mergeStep (mergeAt frags x) x := by
  simp [mergeAt, mergeFrom, List.range_succ, List.foldl_append]

theorem mergeAt_frags_self (frags : FragFiles) (x : Nat) :
    (mergeAt frags x).frags x = frags x := by
  unfold mergeAt
  rw [mergeFrom_frags]
  simp

theorem mergeStep_skip (st : MergeState) (x : Nat) (h : st.frags x = none) :
    mergeStep st x = st := by
  simp [mergeStep, h]

theorem filesOf_map_range (fs : List (List Byte)) (i : Nat) (hi : i ≤ fs.length) :
    (List.range i).map (fun j => (filesOf fs j).getD []) = fs.take i := by
  apply List.ext_getElem
  · simp [Nat.min_eq_left hi]
  · intro k h1 h2
    have hk : k < i := by simpa using h1
    have hk' : k < fs.length := lt_of_lt_of_le hk hi
    simp [filesOf, List.getElem?_eq_getElem hk']

theorem presentConcat_filesOf (fs : List (List Byte)) (i : Nat) (hi : i ≤ fs.length) :
    presentConcat (filesOf fs) (List.range i) = (fs.take i).flatten := by
  unfold presentConcat
  rw [filesOf_map_range fs i hi]

theorem presentConcat_except_length (content : Nat → List Byte) (missing : Nat → Bool)
    (xs : List Nat) :
    (presentConcat (filesExcept content missing) xs).length
      = ((xs.filter fun i => !missing i).map fun i => (content i).length).sum := by
  induction xs with
  | nil => simp [presentConcat]
  | cons x xs ih =>
    rw [presentConcat_cons, List.length_append, ih]
    cases hm : missing x <;> simp [filesExcept, hm, List.filter_cons]

/-! ## The merge loop: claims -/

/-- C3. For every list of fragment contents, all present at merge time, the
merge loop of `Do` on the empty output file leaves the concatenation of the
fragments in ascending index order, of length the sum of the fragment
lengths, and it writes fragment `i` at the offset that is the sum of the
lengths of the fragments before it, where its bytes then lie. -/
theorem merge_concat (fs : List (List Byte)) :
    (mergeLoop (filesOf fs) fs.length).out = fs.flatten ∧
    (mergeLoop (filesOf fs) fs.length).out.length = (fs.map List.length).sum ∧
    ∀ (i : Nat) (h : i < fs.length),
      (mergeAt (filesOf fs) i).frags i = some fs[i] ∧
      (mergeAt (filesOf fs) i).offset = ((fs.take i).map List.length).sum ∧
      (mergeAt (filesOf fs) (i + 1)).out
        = writeAt (mergeAt (filesOf fs) i).out fs[i] (mergeAt (filesOf fs) i).offset ∧
      ((mergeLoop (filesOf fs) fs.length).out.drop
        ((fs.take i).map List.length).sum).take fs[i].length = fs[i] := by
  have hout : (mergeLoop (filesOf fs) fs.length).out = fs.flatten := by
    rw [mergeLoop_out, Int.toNat_ofNat, presentConcat_filesOf fs fs.length le_rfl, List.take_length]
  refine ⟨hout, ?_, ?_⟩
  · rw [hout, List.length_flatten]
  · intro i h
    have hfile : filesOf fs i = some fs[i] := by simp [filesOf, List.getElem?_eq_getElem h]
    have hoff : (mergeAt (filesOf fs) i).offset = ((fs.take i).map List.length).sum := by
      rw [mergeAt_offset, presentConcat_filesOf fs i (Nat.le_of_lt h), List.length_flatten]
    have hfr : (mergeAt (filesOf fs) i).frags i = some fs[i] := by
      rw [mergeAt_frags_self, hfile]
    refine ⟨hfr, hoff, ?_, ?_⟩
    · rw [mergeAt_succ]
      simp [mergeStep, hfr]
    · have hs := presentConcat_slice (filesOf fs) fs.length i fs[i] h hfile
      rw [presentConcat_filesOf fs i (Nat.le_of_lt h), List.length_flatten,
        ← mergeAt_out] at hs
      exact hs

/-- C3, at fragments of 10, 20 and 5 bytes: the output has 35 bytes and the
fragments are written at the offsets 0, 10 and 30. -/
theorem merge_concat_witness :
    (mergeLoop (filesOf sampleFragments) 3).out.length = 35 ∧
    (mergeAt (filesOf sampleFragments) 0).offset = 0 ∧
    (mergeAt (filesOf sampleFragments) 1).offset = 10 ∧
    (mergeAt (filesOf sampleFragments) 2).offset = 30 :=
  ⟨(merge_concat sampleFragments).2.1,
   ((merge_concat sampleFragments).2.2 0 (by decide)).2.1,
   ((merge_concat sampleFragments).2.2 1 (by decide)).2.1,
   ((merge_concat sampleFragments).2.2 2 (by decide)).2.1⟩

/-! ## Facts about the planning step -/

theorem plan_spec (d : model) (S : Int) :
    (d.plan S).filesize = S ∧
    (d.plan S).Concurrency = (if d.Concurrency < 1 then 24 else d.Concurrency) ∧
    (d.plan S).ChunkSize =
      (if d.ChunkSize < 1 then ceilDivF64 S (if d.Concurrency < 1 then 24 else d.Concurrency)
        else d.ChunkSize) ∧
    (d.plan S).URL = d.URL ∧ (d.plan S).Output = d.Output ∧ (d.plan S).Timeout = d.Timeout := by
  unfold model.plan
  by_cases hc : d.Concurrency < 1 <;> by_cases hk : d.ChunkSize < 1 <;>
    simp [hc, hk, model.SetConcurrency, model.SetChunk]

theorem rangeLen_inner (m : model) (n i : Int) (h : i < n - 1) :
    m.rangeLen n i = m.ChunkSize := by
  simp only [model.rangeLen, model.byteRange, h, if_true]
  ring

theorem rangeLen_last (m : model) (n i : Int) (h : ¬ i < n - 1) :
    m.rangeLen n i = m.filesize - i * m.ChunkSize := by
  simp only [model.rangeLen, model.byteRange, h, if_false]
  ring

theorem ceilDiv_bounds (S C : Int) (hC : 1 ≤ C) :
    (ceilDiv S C - 1) * C < S ∧ S ≤ ceilDiv S C * C := by
  unfold ceilDiv
  have h1 : C * ((S + C - 1) / C) + (S + C - 1) % C = S + C - 1 := Int.ediv_add_emod _ _
  have h2 : 0 ≤ (S + C - 1) % C := Int.emod_nonneg _ (by omega)
  have h3 : (S + C - 1) % C < C := Int.emod_lt_of_pos _ (by omega)
  constructor <;> nlinarith

theorem ceilDiv_pos (S C : Int) (hS : 1 ≤ S) (hC : 1 ≤ C) : 1 ≤ ceilDiv S C := by
  have h := (ceilDiv_bounds S C hC).2
  by_contra hc
  have : ceilDiv S C ≤ 0 := by omega
  nlinarith

/-- Below `2^53` the planning step of `Do` is the one of the specification:
the concurrency becomes 24 exactly when it is below 1, and then the chunk
size becomes `ceil(S / concurrency)` exactly when it is below 1. -/
theorem plan_below_2_53 (d : model) (S : Int) (hS : 0 ≤ S) (hS53 : S < 2 ^ 53) :
    d.plan S =
      { d with
        filesize := S
        Concurrency := if d.Concurrency < 1 then 24 else d.Concurrency
        ChunkSize :=
          if d.ChunkSize < 1 then ceilDiv S (if d.Concurrency < 1 then 24 else d.Concurrency)
          else d.ChunkSize } := by
  unfold model.plan
  by_cases hc : d.Concurrency < 1 <;> by_cases hk : d.ChunkSize < 1 <;>
    simp only [hc, hk, if_true, if_false, model.SetConcurrency, model.SetChunk]
  · rw [ceilDivF64_exact S 24 hS hS53 (by norm_num)]
  · rw [ceilDivF64_exact S d.Concurrency hS hS53 (by omega)]

/-- Below `2^53` a positive size is planned with a positive chunk size and a
positive fragment count, which is `ceil(S / C)`. -/
theorem plan_pos_below_2_53 (d : model) (S : Int) (hS : 1 ≤ S) (hS53 : S < 2 ^ 53) :
    1 ≤ (d.plan S).Concurrency ∧ 1 ≤ (d.plan S).ChunkSize ∧
    (d.plan S).fragment = ceilDiv S (d.plan S).ChunkSize ∧ 1 ≤ (d.plan S).fragment := by
  obtain ⟨hfs, hconc, hchunk, _⟩ := plan_spec d S
  have h1 : 1 ≤ (d.plan S).Concurrency := by
    rw [hconc]; split_ifs <;> omega
  have h2 : 1 ≤ (d.plan S).ChunkSize := by
    rw [hchunk]
    by_cases hk : d.ChunkSize < 1
    · rw [if_pos hk, ceilDivF64_exact S _ (by omega) hS53 (by rw [← hconc]; exact h1)]
      exact ceilDiv_pos S _ hS (by rw [← hconc]; exact h1)
    · rw [if_neg hk]; omega
  have h3 : (d.plan S).fragment = ceilDiv S (d.plan S).ChunkSize := by
    unfold model.fragment
    rw [hfs]
    exact ceilDivF64_exact S _ (by omega) hS53 h2
  exact ⟨h1, h2, h3, by rw [h3]; exact ceilDiv_pos S _ hS h2⟩

/-! ## Merging the planned fragments -/

/-- Whenever a count `n ≤ 0` comes only with the size 0: if every fragment
file `i` in `[0, n)` is present at merge time and holds exactly
`end_i - start_i + 1` bytes, then after the merge loop the output file has
exactly `S` bytes and the bytes of fragment `i` were written, and lie, at the
absolute offset `start_i = i * C`. -/
theorem merge_planned_of_count (m : model) (n : Int) (frags : FragFiles)
    (hzero : n ≤ 0 → m.filesize = 0)
    (hfiles : ∀ i : Nat, (i : Int) < n →
      ∃ buf, frags i = some buf ∧ (buf.length : Int) = m.rangeLen n i) :
    ((mergeLoop frags n).out.length : Int) = m.filesize ∧
    ∀ i : Nat, (i : Int) < n → ∃ buf, frags i = some buf ∧
      (m.byteRange n i).1 = i * m.ChunkSize ∧
      ((mergeAt frags i).offset : Int) = (m.byteRange n i).1 ∧
      ((mergeLoop frags n).out.drop (mergeAt frags i).offset).take buf.length = buf := by
  by_cases hn0 : n ≤ 0
  · have hS0 := hzero hn0
    have hnat : n.toNat = 0 := by omega
    constructor
    · rw [mergeLoop_out, hnat]
      simp [presentConcat, hS0]
    · intro i hi
      omega
  · obtain ⟨k, hk⟩ : ∃ k : Nat, n.toNat = k + 1 := ⟨n.toNat - 1, by omega⟩
    have hkn : (k : Int) = n - 1 := by omega
    -- every fragment before the last holds `C` bytes
    have hconst : ∀ j, j < k → ∃ buf, frags j = some buf ∧ buf.length = m.ChunkSize.toNat := by
      intro j hj
      obtain ⟨buf, hb, hl⟩ := hfiles j (by omega)
      rw [rangeLen_inner m n j (by omega)] at hl
      exact ⟨buf, hb, by omega⟩
    have hoff : ∀ i, i ≤ k →
        (((presentConcat frags (List.range i)).length : Nat) : Int) = i * m.ChunkSize := by
      intro i hi
      rw [presentConcat_length_const frags m.ChunkSize.toNat i
        (fun j hj => hconst j (lt_of_lt_of_le hj hi))]
      rcases Nat.eq_zero_or_pos i with h0 | hpos
      · subst h0; simp
      · obtain ⟨buf, _, hl⟩ := hfiles 0 (by omega)
        rw [rangeLen_inner m n ((0 : Nat) : Int) (by omega)] at hl
        have hC : 0 ≤ m.ChunkSize := by omega
        push_cast
        rw [Int.toNat_of_nonneg hC]
    constructor
    · obtain ⟨buf, hb, hl⟩ := hfiles k (by omega)
      rw [rangeLen_last m n k (by omega)] at hl
      rw [mergeLoop_out, hk, List.range_succ, presentConcat_append, List.length_append]
      push_cast
      rw [hoff k le_rfl]
      simp only [presentConcat, List.map_cons, List.map_nil, hb, Option.getD_some,
        List.flatten_cons, List.flatten_nil, List.append_nil]
      rw [hl]
      ring
    · intro i hi
      obtain ⟨buf, hb, _⟩ := hfiles i hi
      refine ⟨buf, hb, rfl, ?_, ?_⟩
      · rw [mergeAt_offset]
        exact hoff i (by omega)
      · rw [mergeLoop_out, mergeAt_offset]
        exact presentConcat_slice frags n.toNat i buf (by omega) hb

/-- Below `2^53` the merge of the planned fragments gives a file of the
total size: for every descriptor and probed size `0 ≤ S < 2^53`, with the
planned descriptor and the fragment count `Do` computes, if every fragment
file is present and holds exactly `end_i - start_i + 1` bytes, the output
file has exactly `S` bytes and fragment `i` lies at the offset `i * C`. -/
theorem merge_planned_below_2_53 (d : model) (S : Int) (frags : FragFiles) (hS : 0 ≤ S)
    (hS53 : S < 2 ^ 53)
    (hfiles : ∀ i : Nat, (i : Int) < (d.plan S).fragment →
      ∃ buf, frags i = some buf ∧
        (buf.length : Int) = (d.plan S).rangeLen (d.plan S).fragment i) :
    ((mergeLoop frags (d.plan S).fragment).out.length : Int) = S ∧
    ∀ i : Nat, (i : Int) < (d.plan S).fragment → ∃ buf, frags i = some buf ∧
      ((d.plan S).byteRange (d.plan S).fragment i).1 = i * (d.plan S).ChunkSize ∧
      ((mergeAt frags i).offset : Int) = ((d.plan S).byteRange (d.plan S).fragment i).1 ∧
      ((mergeLoop frags (d.plan S).fragment).out.drop (mergeAt frags i).offset).take buf.length
        = buf := by
  have hfs := (plan_spec d S).1
  have h := merge_planned_of_count (d.plan S) (d.plan S).fragment frags (by
    intro hn0
    by_contra hne
    have hpos := (plan_pos_below_2_53 d S (by rw [hfs] at hne; omega) hS53).2.2.2
    omega) hfiles
  rw [hfs] at h
  exact h

/-- The scenario `S = 100`, `C = 40`, concurrency 4: the fragment count is
3, the ranges are `[0,39]`, `[40,79]`, `[80,99]` and the merged file has 100
bytes. -/
theorem scenario_100_40 :
    sampleModel.plan 100 = samplePlanned ∧
    samplePlanned.fragment = 3 ∧
    samplePlanned.byteRange 3 0 = (0, 39) ∧
    samplePlanned.byteRange 3 1 = (40, 79) ∧
    samplePlanned.byteRange 3 2 = (80, 99) ∧
    ((mergeLoop sampleFiles 3).out.length : Int) = 100 :=
  ⟨by decide, by decide, by decide, by decide, by decide,
   (merge_planned_below_2_53 sampleModel 100 sampleFiles (by decide) (by decide)
      (fun i hi => by
        have h3 : i < 3 := by
          have : (sampleModel.plan 100).fragment = 3 := by decide
          omega
        interval_cases i
        · exact ⟨_, rfl, by decide⟩
        · exact ⟨_, rfl, by decide⟩
        · exact ⟨_, rfl, by decide⟩)).1⟩

/-- C2, at the total size `S = 2^63 - 1 = 9223372036854775807`, the largest
`Content-Length` the HTTP client accepts, with chunk size 1: `float64(S)` is
`2^63`, whose conversion to `int` gives the fragment count `-2^63`.  No
index lies in `[0, fragmentCount)`, so every fragment file of the plan is
present, yet the merge loop does not run and `Do` returns no error and
leaves an output file of 0 bytes, not of `S` bytes. -/
theorem merge_empty_at_max_int :
    (maxModel.filesize = 9223372036854775807 ∧ maxModel.ChunkSize = 1) ∧
    float64OfNat 9223372036854775807 = 9223372036854775808 ∧
    maxModel.fragment = -9223372036854775808 ∧
    (∀ i : Nat, ¬ (i : Int) < maxModel.fragment) ∧
    (∀ frags : FragFiles, resultLength (combine none frags maxModel.fragment) = some 0) := by
  have hn : maxModel.fragment = -9223372036854775808 := by decide
  refine ⟨by decide, by decide, hn, ?_, ?_⟩
  · intro i
    rw [hn]
    omega
  · intro frags
    rw [hn]
    rfl

/-! ## Missing fragment files: claim -/

theorem sum_rangeLen_inner (m : model) (n : Int) (j : Nat) (hj : (j : Int) ≤ n - 1) :
    ((List.range j).map fun i : Nat => m.rangeLen n (i : Int)).sum = j * m.ChunkSize := by
  induction j with
  | zero => simp
  | succ j ih =>
    have hj' : ((j : Nat) : Int) < n - 1 := by push_cast at hj; omega
    rw [List.range_succ, List.map_append, List.sum_append, ih (by omega)]
    simp only [List.map_cons, List.map_nil, List.sum_cons, List.sum_nil, add_zero]
    rw [rangeLen_inner m n j hj']
    push_cast
    ring

/-- The planned lengths of the ranges of all indices add up to the total size. -/
theorem sum_rangeLen (m : model) (n : Int) (hn : 1 ≤ n) :
    ((List.range n.toNat).map fun i : Nat => m.rangeLen n (i : Int)).sum = m.filesize := by
  obtain ⟨k, hk⟩ : ∃ k : Nat, n.toNat = k + 1 := ⟨n.toNat - 1, by omega⟩
  have hkn : (k : Int) = n - 1 := by omega
  rw [hk, List.range_succ, List.map_append, List.sum_append,
    sum_rangeLen_inner m n k (by omega)]
  simp only [List.map_cons, List.map_nil, List.sum_cons, List.sum_nil, add_zero]
  rw [rangeLen_last m n k (by omega)]
  ring

theorem presentConcat_le_planned (content : Nat → List Byte) (missing : Nat → Bool)
    (r : Nat → Int) (xs : List Nat)
    (h : ∀ i ∈ xs, (missing i = true → 0 ≤ r i) ∧
      (missing i = false → ((content i).length : Int) = r i)) :
    ((presentConcat (filesExcept content missing) xs).length : Int) ≤ (xs.map r).sum := by
  induction xs with
  | nil => simp [presentConcat]
  | cons x xs ih =>
    have hx := h x (List.mem_cons_self x xs)
    have hxs := ih (fun i hi => h i (List.mem_cons_of_mem x hi))
    rw [presentConcat_cons, List.length_append, List.map_cons, List.sum_cons]
    push_cast
    cases hm : missing x
    · have := hx.2 hm
      simp only [filesExcept, hm, Bool.false_eq_true, if_false, Option.getD_some]
      omega
    · have := hx.1 hm
      simp only [filesExcept, hm, if_true, Option.getD_none, List.length_nil, Nat.cast_zero]
      omega

theorem presentConcat_lt_planned (content : Nat → List Byte) (missing : Nat → Bool)
    (r : Nat → Int) (xs : List Nat)
    (h : ∀ i ∈ xs, (missing i = true → 0 ≤ r i) ∧
      (missing i = false → ((content i).length : Int) = r i))
    (j : Nat) (hj : j ∈ xs) (hmj : missing j = true) (hrj : 0 < r j) :
    ((presentConcat (filesExcept content missing) xs).length : Int) < (xs.map r).sum := by
  induction xs with
  | nil => simp at hj
  | cons x xs ih =>
    have hx := h x (List.mem_cons_self x xs)
    have hle := presentConcat_le_planned content missing r xs
      (fun i hi => h i (List.mem_cons_of_mem x hi))
    rw [presentConcat_cons, List.length_append, List.map_cons, List.sum_cons]
    push_cast
    rcases List.mem_cons.mp hj with hjx | hjx
    · subst hjx
      simp only [filesExcept, hmj, if_true, Option.getD_none, List.length_nil, Nat.cast_zero]
      omega
    · have hlt := ih (fun i hi => h i (List.mem_cons_of_mem x hi)) hjx
      cases hm : missing x
      · have := hx.2 hm
        simp only [filesExcept, hm, Bool.false_eq_true, if_false, Option.getD_some]
        omega
      · have := hx.1 hm
        simp only [filesExcept, hm, if_true, Option.getD_none, List.length_nil, Nat.cast_zero]
        omega

/-- C9 as stated fails: the resource has 12 bytes and is planned in 3
fragments of 4 bytes; the server ignores `Range` and sends the whole
resource each time, which the workers of the indices 0 and 2 store as it
comes; the fragment file of index 1, whose planned range is not empty, is
missing.  `Do` returns no error and leaves 24 bytes, not fewer than the
total size 12. -/
theorem merge_missing_unranged :
    (smallModel.filesize = 12 ∧ smallModel.ChunkSize = 4 ∧ smallModel.fragment = 3) ∧
    (unrangedFiles 0 = some wholeResource ∧ unrangedFiles 1 = none ∧
      unrangedFiles 2 = some wholeResource) ∧
    0 < smallModel.rangeLen smallModel.fragment 1 ∧
    resultLength (combine none unrangedFiles smallModel.fragment) = some 24 ∧
    ¬ ((24 : Int) < smallModel.filesize) := by
  decide

/-- C9, amended. Whatever fragment files are missing at merge time and
whatever the loop bound `n` (in `Do`, the fragment count), once the output
file has been created the end of `Do` returns no error; the iteration of a
missing index leaves the state of the loop, the write offset included, as it
was; the output file is the concatenation, in ascending index order, of the
fragment files that are present, and its length is the sum of their
lengths.  That length is less than the total size of the descriptor when, in
addition, every present fragment file holds exactly `end_i - start_i + 1`
bytes, no missing fragment has a planned range of negative length, and a
fragment with a non-empty planned range is missing. -/
theorem merge_missing (m : model) (content : Nat → List Byte) (missing : Nat → Bool)
    (n : Int) :
    (∃ st, combine none (filesExcept content missing) n = .ok st ∧
      st.out = presentConcat (filesExcept content missing) (List.range n.toNat) ∧
      st.offset = st.out.length ∧
      st.out.length = (((List.range n.toNat).filter fun i => !missing i).map
        fun i => (content i).length).sum ∧
      ((∀ i : Nat, (i : Int) < n →
          (missing i = true → 0 ≤ m.rangeLen n i) ∧
          (missing i = false → ((content i).length : Int) = m.rangeLen n i)) →
        (∃ j : Nat, (j : Int) < n ∧ missing j = true ∧ 0 < m.rangeLen n j) →
        (st.out.length : Int) < m.filesize)) ∧
    (∀ x, missing x = true →
      mergeAt (filesExcept content missing) (x + 1) = mergeAt (filesExcept content missing) x) ∧
    (∀ x, missing x = false →
      (mergeAt (filesExcept content missing) (x + 1)).out
        = (mergeAt (filesExcept content missing) x).out ++ content x) := by
  refine ⟨⟨mergeLoop (filesExcept content missing) n, rfl, mergeLoop_out _ n,
    mergeLoop_offset _ n, ?_, ?_⟩, ?_, ?_⟩
  · rw [mergeLoop_out, presentConcat_except_length]
  · rintro hfiles ⟨j, hj, hmj, hrj⟩
    have hn : 1 ≤ n := by omega
    rw [mergeLoop_out, ← sum_rangeLen m n hn]
    exact presentConcat_lt_planned content missing (fun i : Nat => m.rangeLen n (i : Int)) _
      (fun i hi => hfiles i (by have := List.mem_range.mp hi; omega))
      j (List.mem_range.mpr (by omega)) hmj hrj
  · intro x hx
    rw [mergeAt_succ]
    apply mergeStep_skip
    rw [mergeAt_frags_self]
    simp [filesExcept, hx]
  · intro x hx
    have hfr : (mergeAt (filesExcept content missing) x).frags x = some (content x) := by
      rw [mergeAt_frags_self]
      simp [filesExcept, hx]
    rw [mergeAt_succ]
    simp [mergeStep, hfr, mergeAt_offset, ← mergeAt_out, writeAt_end]

/-- C9, amended, on the resource of 12 bytes planned in 3 fragments of 4
bytes, each present fragment file holding its 4 bytes and the one of index 1
missing: `Do` returns no error and leaves 8 bytes, fewer than 12. -/
theorem merge_missing_witness :
    smallModel.fragment = 3 ∧ smallModel.filesize = 12 ∧
    ∃ st, combine none (filesExcept sampleContent sampleMissing) smallModel.fragment = .ok st ∧
      st.out.length = 8 ∧ (st.out.length : Int) < smallModel.filesize := by
  have hn : smallModel.fragment = 3 := by decide
  obtain ⟨st, h1, _, _, h4, h5⟩ :=
    (merge_missing smallModel sampleContent sampleMissing smallModel.fragment).1
  refine ⟨hn, by decide, st, h1, ?_, ?_⟩
  · rw [h4, hn]; decide
  · apply h5
    · intro i hi
      have h3 : i < 3 := by omega
      rw [hn]
      interval_cases i <;> decide
    · exact ⟨1, by rw [hn]; decide, by decide, by rw [hn]; decide⟩

/-! ## The byte ranges of the workers -/

/-- With the count `n = ceil(S/C)` the range of every index `i < n - 1` has
`C` bytes and the range of the last index `n - 1` has `S - (n-1)*C` bytes,
a number between 1 and `C`. -/
theorem range_lengths_of_ceil (m : model) (n : Int) (hC : 1 ≤ m.ChunkSize)
    (hceil : n = ceilDiv m.filesize m.ChunkSize) :
    (∀ i : Int, i < n - 1 → m.rangeLen n i = m.ChunkSize) ∧
    m.rangeLen n (n - 1) = m.filesize - (n - 1) * m.ChunkSize ∧
    1 ≤ m.rangeLen n (n - 1) ∧ m.rangeLen n (n - 1) ≤ m.ChunkSize := by
  obtain ⟨hlo, hhi⟩ := ceilDiv_bounds m.filesize m.ChunkSize hC
  rw [← hceil] at hlo hhi
  have hlast : m.rangeLen n (n - 1) = m.filesize - (n - 1) * m.ChunkSize :=
    rangeLen_last m n (n - 1) (lt_irrefl _)
  refine ⟨fun i hi => rangeLen_inner m n i hi, hlast, ?_, ?_⟩
  · rw [hlast]; linarith
  · rw [hlast]; linarith

/-- Below `2^53` the range lengths are those of the specification, with the
fragment count `Do` computes: `C` bytes for every index before the last and
between 1 and `C` bytes, namely `S - (n-1)*C`, for the last. -/
theorem range_lengths_below_2_53 (m : model) (hS : 1 ≤ m.filesize)
    (hS53 : m.filesize < 2 ^ 53) (hC : 1 ≤ m.ChunkSize) :
    m.fragment = ceilDiv m.filesize m.ChunkSize ∧
    (∀ i : Int, i < m.fragment - 1 → m.rangeLen m.fragment i = m.ChunkSize) ∧
    m.rangeLen m.fragment (m.fragment - 1)
      = m.filesize - (m.fragment - 1) * m.ChunkSize ∧
    1 ≤ m.rangeLen m.fragment (m.fragment - 1) ∧
    m.rangeLen m.fragment (m.fragment - 1) ≤ m.ChunkSize :=
  have h : m.fragment = ceilDiv m.filesize m.ChunkSize :=
    ceilDivF64_exact m.filesize m.ChunkSize (by omega) hS53 hC
  ⟨h, range_lengths_of_ceil m m.fragment hC h⟩

/-- C4, at the total size `S = 2^55 + 5 = 36028797018963973` and the chunk
size `C = 1`: the fragment count of `Do` is `S + 3`, not `ceil(S/C) = S`,
and the range the worker computes for the last index, `S + 2`, is
`[S + 2, S - 1]`, of length `-2`, not between 1 and `C`.  At the size
`36036487095954653` planned with concurrency 7 the count is 8 and the range
of the last index has 0 bytes. -/
theorem last_range_negative_at_2_55 :
    (hugeModel.filesize = 36028797018963973 ∧ hugeModel.ChunkSize = 1) ∧
    hugeModel.fragment = 36028797018963976 ∧
    ceilDiv hugeModel.filesize hugeModel.ChunkSize = 36028797018963973 ∧
    hugeModel.byteRange hugeModel.fragment (hugeModel.fragment - 1)
      = (36028797018963975, 36028797018963972) ∧
    hugeModel.rangeLen hugeModel.fragment (hugeModel.fragment - 1) = -2 ∧
    (samplePlanned7.fragment = 8 ∧ samplePlanned7.rangeLen 8 (8 - 1) = 0) := by
  decide

/-- With the count `n = ceil(S/C)` the ranges of the workers partition
`[0, S-1]`: every offset of the file lies in the range of exactly one index
and no range leaves the file. -/
theorem ranges_partition_of_ceil (m : model) (n : Int)
    (hC : 1 ≤ m.ChunkSize) (hceil : n = ceilDiv m.filesize m.ChunkSize) :
    (∀ x : Int, 0 ≤ x → x ≤ m.filesize - 1 →
      ∃ i : Int, (0 ≤ i ∧ i < n ∧ (m.byteRange n i).1 ≤ x ∧ x ≤ (m.byteRange n i).2) ∧
        ∀ j : Int, 0 ≤ j ∧ j < n ∧ (m.byteRange n j).1 ≤ x ∧ x ≤ (m.byteRange n j).2 → j = i) ∧
    (∀ i x : Int, 0 ≤ i → i < n → (m.byteRange n i).1 ≤ x → x ≤ (m.byteRange n i).2 →
      0 ≤ x ∧ x ≤ m.filesize - 1) := by
  obtain ⟨hlo, hhi⟩ := ceilDiv_bounds m.filesize m.ChunkSize hC
  rw [← hceil] at hlo hhi
  -- a range, spelled out
  have hrange : ∀ i : Int, (m.byteRange n i).1 = i * m.ChunkSize ∧
      (i < n - 1 → (m.byteRange n i).2 = i * m.ChunkSize + m.ChunkSize - 1) ∧
      (¬ i < n - 1 → (m.byteRange n i).2 = m.filesize - 1) := by
    intro i
    refine ⟨rfl, fun h => ?_, fun h => ?_⟩
    · simp only [model.byteRange, h, if_true]
    · simp only [model.byteRange, h, if_false]
  -- the upper end of a range lies below the start of every later range
  have hend : ∀ i j : Int, 0 ≤ i → i < j → j < n →
      (m.byteRange n i).2 < (m.byteRange n j).1 := by
    intro i j _ hij hjn
    rw [(hrange j).1, (hrange i).2.1 (by omega)]
    nlinarith
  constructor
  · intro x hx0 hxS
    have hd : m.ChunkSize * (x / m.ChunkSize) + x % m.ChunkSize = x := Int.ediv_add_emod _ _
    have hr0 : 0 ≤ x % m.ChunkSize := Int.emod_nonneg _ (by omega)
    have hr1 : x % m.ChunkSize < m.ChunkSize := Int.emod_lt_of_pos _ (by omega)
    have hi0 : 0 ≤ x / m.ChunkSize := Int.ediv_nonneg hx0 (by omega)
    have hin : x / m.ChunkSize < n := by
      by_contra hc
      have : n ≤ x / m.ChunkSize := by omega
      nlinarith
    have hmem : (m.byteRange n (x / m.ChunkSize)).1 ≤ x ∧ x ≤ (m.byteRange n (x / m.ChunkSize)).2 := by
      constructor
      · rw [(hrange _).1]; nlinarith
      · by_cases hl : x / m.ChunkSize < n - 1
        · rw [(hrange _).2.1 hl]; nlinarith
        · rw [(hrange _).2.2 hl]; exact hxS
    refine ⟨x / m.ChunkSize, ⟨hi0, hin, hmem.1, hmem.2⟩, ?_⟩
    rintro j ⟨hj0, hjn, hj1, hj2⟩
    rcases lt_trichotomy j (x / m.ChunkSize) with h | h | h
    · have := hend j (x / m.ChunkSize) hj0 h hin
      omega
    · exact h
    · have := hend (x / m.ChunkSize) j hi0 h hjn
      omega
  · intro i x hi0 hin h1 h2
    rw [(hrange i).1] at h1
    constructor
    · nlinarith
    · by_cases hl : i < n - 1
      · rw [(hrange i).2.1 hl] at h2
        nlinarith
      · rw [(hrange i).2.2 hl] at h2
        exact h2

/-- Below `2^53` the fragment count of `Do` is `ceil(S/C)` and the ranges of
the workers partition `[0, S-1]`. -/
theorem ranges_partition_below_2_53 (m : model) (hS : 0 ≤ m.filesize)
    (hS53 : m.filesize < 2 ^ 53) (hC : 1 ≤ m.ChunkSize) :
    m.fragment = ceilDiv m.filesize m.ChunkSize ∧
    (∀ x : Int, 0 ≤ x → x ≤ m.filesize - 1 →
      ∃ i : Int, (0 ≤ i ∧ i < m.fragment ∧
          (m.byteRange m.fragment i).1 ≤ x ∧ x ≤ (m.byteRange m.fragment i).2) ∧
        ∀ j : Int, 0 ≤ j ∧ j < m.fragment ∧
          (m.byteRange m.fragment j).1 ≤ x ∧ x ≤ (m.byteRange m.fragment j).2 → j = i) ∧
    (∀ i x : Int, 0 ≤ i → i < m.fragment →
      (m.byteRange m.fragment i).1 ≤ x → x ≤ (m.byteRange m.fragment i).2 →
      0 ≤ x ∧ x ≤ m.filesize - 1) :=
  have h : m.fragment = ceilDiv m.filesize m.ChunkSize :=
    ceilDivF64_exact m.filesize m.ChunkSize hS hS53 hC
  ⟨h, ranges_partition_of_ceil m m.fragment hC h⟩

/-- C1, at the total size `S = 2^55 + 5 = 36028797018963973` and the chunk
size `C = 1`: binary64 numbers are 8 apart there and `float64(S)` is
`S + 3`, so `Do` computes the fragment count `S + 3` where `ceil(S/C)` is
`S`, and the worker that takes the index `S` computes the range `[S, S]`,
which lies outside `[0, S-1]`. -/
theorem fragment_count_rounds_at_2_55 :
    hugeModel.fragment = 36028797018963976 ∧
    ceilDiv hugeModel.filesize hugeModel.ChunkSize = 36028797018963973 ∧
    hugeModel.byteRange 36028797018963976 36028797018963973
      = (36028797018963973, 36028797018963973) := by
  decide

/-! ## The planning step: claims -/

/-- C6, at the total size `2^55 + 5 = 36028797018963973` with concurrency 1
and the chunk size unset: `float64` of the size is `36028797018963976`, and
`Do` sets the chunk size to that, where `ceil(totalSize / Concurrency)` is
`36028797018963973`. -/
theorem plan_chunk_rounds_at_2_55 :
    (((New "http://host/file").SetConcurrency 1).plan 36028797018963973).ChunkSize
      = 36028797018963976 ∧
    (((New "http://host/file").SetConcurrency 1).plan 36028797018963973).Concurrency = 1 ∧
    ceilDiv 36028797018963973 1 = 36028797018963973 := by
  decide

/-- Below `2^53` a defaulted chunk size is at least 1 and the fragment count
lies between 1 and the effective concurrency. -/
theorem plan_count_below_2_53 (d : model) (S : Int) (hS : 1 ≤ S) (hS53 : S < 2 ^ 53)
    (hk : d.ChunkSize < 1) :
    (d.plan S).Concurrency = (if d.Concurrency < 1 then 24 else d.Concurrency) ∧
    (d.plan S).ChunkSize = ceilDiv S (d.plan S).Concurrency ∧
    1 ≤ (d.plan S).ChunkSize ∧ 1 ≤ (d.plan S).fragment ∧
    (d.plan S).fragment ≤ (d.plan S).Concurrency := by
  obtain ⟨_, hconc, hchunk, _⟩ := plan_spec d S
  obtain ⟨h1, h2, h3, h4⟩ := plan_pos_below_2_53 d S hS hS53
  have hchunk' : (d.plan S).ChunkSize = ceilDiv S (d.plan S).Concurrency := by
    rw [hchunk, if_pos hk, ← hconc]
    exact ceilDivF64_exact S _ (by omega) hS53 h1
  refine ⟨hconc, hchunk', h2, h4, ?_⟩
  rw [h3]
  have hb1 := (ceilDiv_bounds S (d.plan S).Concurrency h1).2
  have hb2 := (ceilDiv_bounds S (d.plan S).ChunkSize h2).1
  rw [← hchunk'] at hb1
  by_contra hc
  have h5 : (d.plan S).Concurrency ≤ ceilDiv S (d.plan S).ChunkSize - 1 := by omega
  nlinarith

/-- C10, at the total size `S = 36036487095954653 = 7 * 5148069585136379`
with concurrency 7 and the chunk size unset: `Do` defaults the chunk size to
`C = 5148069585136379`, which is `ceil(S / 7)`, and then computes 8
fragments, more than the 7 places of the work queue and more than
`ceil(S / C) = 7`: `float64(S)` is `S + 3`, and the binary64 quotient
`(S + 3) / C` is the number next above 7.  The range of the last index, 7,
starts at `S`, past the end of the file. -/
theorem plan_count_exceeds_concurrency :
    (samplePlanned7.Concurrency = 7 ∧ samplePlanned7.ChunkSize = 5148069585136379) ∧
    ((New "http://host/file").SetConcurrency 7).plan 36036487095954653 = samplePlanned7 ∧
    ceilDiv 36036487095954653 7 = 5148069585136379 ∧
    samplePlanned7.fragment = 8 ∧
    ceilDiv 36036487095954653 5148069585136379 = 7 ∧
    samplePlanned7.byteRange 8 7 = (36036487095954653, 36036487095954652) := by
  decide

/-- At the top of the `int` range the defaulted chunk size itself is lost:
with concurrency 1, the chunk size unset and the size `2^63 - 1` the
ceiling `2^63` leaves the `int` range and the chunk size becomes `-2^63`. -/
theorem plan_chunk_at_max_int :
    (((New "http://host/file").SetConcurrency 1).plan 9223372036854775807).ChunkSize
      = -9223372036854775808 := by
  decide

/-! ## The timeout: claims -/

theorem SetTimeout_floor (m : model) (t : Int) : 2 * Second ≤ (m.SetTimeout t).Timeout := by
  simp only [model.SetTimeout, Second]
  split_ifs <;> omega

/-- C7. For every duration `t`, after `SetTimeout(t)` the `Timeout` of the
descriptor is 5 seconds if `t` is below 2 seconds and `t` itself otherwise;
so it is at least 2 seconds; and no other field of the descriptor changes. -/
theorem SetTimeout_spec (m : model) (t : Int) :
    (m.SetTimeout t).Timeout = (if t < 2 * Second then 5 * Second else t) ∧
    2 * Second ≤ (m.SetTimeout t).Timeout ∧
    (m.SetTimeout t).URL = m.URL ∧
    (m.SetTimeout t).Concurrency = m.Concurrency ∧
    (m.SetTimeout t).ChunkSize = m.ChunkSize ∧
    (m.SetTimeout t).Output = m.Output ∧
    (m.SetTimeout t).filesize = m.filesize := by
  exact ⟨rfl, SetTimeout_floor m t, rfl, rfl, rfl, rfl, rfl⟩

/-- C8, on a descriptor fresh from `New`, its timeout never set: `Do` gives
its HTTP client the timeout `0`, and so do the workers of the planned
descriptor; that is not 5 seconds and lies below the 2-second floor (an
`http.Client` reads `0` as "no timeout").  The same descriptor after
`SetTimeout(0)` gets 5 seconds, and `Do` does default the two other fields
that were never set, the concurrency to 24 and the chunk size. -/
theorem clientTimeout_unset :
    (New "http://host/file").clientTimeout = 0 ∧
    ((New "http://host/file").plan 100).clientTimeout = 0 ∧
    (New "http://host/file").clientTimeout ≠ 5 * Second ∧
    ¬ 2 * Second ≤ (New "http://host/file").clientTimeout ∧
    ((New "http://host/file").SetTimeout 0).clientTimeout = 5 * Second ∧
    ((New "http://host/file").plan 100).Concurrency = 24 ∧
    ((New "http://host/file").plan 100).ChunkSize = 5 := by
  decide

/-- The timeout of every HTTP call is the `Timeout` field as it stands: the
planning step leaves it alone, and after `SetTimeout` it is at least 2
seconds. -/
theorem clientTimeout_after_SetTimeout (m : model) (t S : Int) :
    ((m.SetTimeout t).plan S).clientTimeout = (if t < 2 * Second then 5 * Second else t) ∧
    2 * Second ≤ ((m.SetTimeout t).plan S).clientTimeout := by
  have h : ((m.SetTimeout t).plan S).clientTimeout = (m.SetTimeout t).Timeout :=
    (plan_spec (m.SetTimeout t) S).2.2.2.2.2
  exact ⟨h, by rw [h]; exact SetTimeout_floor m t⟩

/-! ## The scheduling system -/

theorem inFlight_replicate_idle (c : Nat) :
    ((List.replicate c Worker.idle).map Worker.held).flatten = [] := by
  induction c with
  | zero => rfl
  | succ c ih => simp [List.replicate_succ, Worker.held, ih]

theorem count_inFlight_split (a : Nat) (pre post : List Worker) (w : Worker) :
    (((pre ++ w :: post).map Worker.held).flatten).count a
      = ((pre.map Worker.held).flatten).count a + w.held.count a
        + ((post.map Worker.held).flatten).count a := by
  simp [List.count_append, Nat.add_assoc]

theorem count_places (p : Plan) (s : Sched) (a : Nat) :
    (s.places p).count a = s.hand.toList.count a + (s.unpublished p).count a + s.queue.count a
      + s.inFlight.count a + s.redo.count a + s.received.count a + s.finish.count a := by
  simp only [Sched.places, Sched.fivePlaces, Sched.signals, List.count_append]
  omega

theorem count_unpublished_succ (p : Plan) (s : Sched) (a : Nat) (h : s.next < p.fragment) :
    (s.unpublished p).count a
      = [s.next].count a + (List.range' (s.next + 1) (p.fragment - (s.next + 1))).count a := by
  have h1 : p.fragment - s.next = (p.fragment - (s.next + 1)) + 1 := by omega
  rw [Sched.unpublished, h1, List.range'_succ]
  simp [List.count_cons, Nat.add_comm]

/-- Every step keeps the number of occurrences of every index in the six places. -/
theorem step_count (p : Plan) (s t : Sched) (h : Step p s t) (a : Nat) :
    (t.places p).count a = (s.places p).count a := by
  rw [count_places, count_places]
  cases h with
  | publish h1 h2 =>
    rw [count_unpublished_succ p s a h1]
    simp only [Sched.unpublished, Sched.inFlight, List.count_append]
    omega
  | feederRecv j rest h1 h2 h3 =>
    simp only [Sched.unpublished, Sched.inFlight, h2, h3, Option.toList, List.count_cons,
      List.count_nil]
    omega
  | handOver i pre post h1 h2 h3 h4 =>
    simp only [Sched.unpublished, Sched.inFlight, h2, h4, count_inFlight_split, Option.toList,
      Worker.held, List.count_nil]
    omega
  | feederSend j h1 h2 =>
    simp only [Sched.unpublished, Sched.inFlight, h1, Option.toList, List.count_append,
      List.count_nil]
    omega
  | take i rest pre post h1 h2 =>
    simp only [Sched.unpublished, Sched.inFlight, h1, h2, count_inFlight_split, Worker.held,
      List.count_cons, List.count_nil]
    omega
  | fetchFail i pre post h =>
    simp only [Sched.unpublished, Sched.inFlight, h, count_inFlight_split, Worker.held]
  | fetchOk i pre post h =>
    simp only [Sched.unpublished, Sched.inFlight, h, count_inFlight_split, Worker.held]
  | createFail i pre post h =>
    simp only [Sched.unpublished, Sched.inFlight, h, count_inFlight_split, Worker.held]
  | createOk i pre post h =>
    simp only [Sched.unpublished, Sched.inFlight, h, count_inFlight_split, Worker.held]
  | copyFail i pre post h =>
    simp only [Sched.unpublished, Sched.inFlight, h, count_inFlight_split, Worker.held]
  | copyOk i pre post h =>
    simp only [Sched.unpublished, Sched.inFlight, h, count_inFlight_split, Worker.held]
  | pushRedo i pre post h1 h2 =>
    simp only [Sched.unpublished, Sched.inFlight, h1, count_inFlight_split, Worker.held,
      List.count_append, List.count_nil]
    omega
  | pushFinish i pre post h1 h2 =>
    simp only [Sched.unpublished, Sched.inFlight, h1, count_inFlight_split, Worker.held,
      List.count_append, List.count_nil]
    omega
  | mainRecv i rest h1 h2 =>
    simp only [Sched.unpublished, Sched.inFlight, h2, List.count_append, List.count_cons,
      List.count_nil]
    omega

theorem reachable_count (p : Plan) (s : Sched) (h : Reachable p s) (a : Nat) :
    (s.places p).count a = (List.range p.fragment).count a := by
  induction h with
  | init =>
    have hin : (Sched.init p).inFlight = [] := inFlight_replicate_idle p.concurrency
    rw [count_places, hin]
    simp [Sched.unpublished, Sched.init, List.range_eq_range']
  | step s t _ ht ih => rw [step_count p s t ht a, ih]

theorem reachable_perm (p : Plan) (s : Sched) (h : Reachable p s) :
    (s.places p).Perm (List.range p.fragment) :=
  List.perm_iff_count.mpr (reachable_count p s h)

theorem count_range_le_one (n a : Nat) : (List.range n).count a ≤ 1 :=
  List.nodup_iff_count_le_one.mp (List.nodup_range n) a

theorem mem_replaced (pre post : List Worker) (old new w : Worker)
    (h : w ∈ pre ++ new :: post) : w = new ∨ w ∈ pre ++ old :: post := by
  simp only [List.mem_append, List.mem_cons] at h ⊢
  tauto

theorem mem_middle (pre post : List Worker) (w : Worker) : w ∈ pre ++ w :: post := by
  simp

/-- A step changes the signals sent only by appending the index of a worker
that stands at `finish <- i`. -/
theorem step_signals (p : Plan) (s t : Sched) (h : Step p s t) :
    t.signals = s.signals ∨
    ∃ i pre post, s.workers = pre ++ Worker.done i :: post ∧ t.signals = s.signals ++ [i] := by
  cases h with
  | pushFinish i pre post h1 h2 =>
    right
    exact ⟨i, pre, post, h1, by simp [Sched.signals]⟩
  | mainRecv i rest h1 h2 =>
    left
    simp [Sched.signals, h2]
  | publish h1 h2 => left; rfl
  | feederRecv j rest h1 h2 h3 => left; rfl
  | handOver i pre post h1 h2 h3 h4 => left; rfl
  | feederSend j h1 h2 => left; rfl
  | take i rest pre post h1 h2 => left; rfl
  | fetchFail i pre post h => left; rfl
  | fetchOk i pre post h => left; rfl
  | createFail i pre post h => left; rfl
  | createOk i pre post h => left; rfl
  | copyFail i pre post h => left; rfl
  | copyOk i pre post h => left; rfl
  | pushRedo i pre post h1 h2 => left; rfl

/-- A worker stands at `finish <- i` only after its `io.Copy` for `i` succeeded. -/
theorem step_done_origin (p : Plan) (s t : Sched) (h : Step p s t) (i : Nat)
    (hd : Worker.done i ∈ t.workers) :
    Worker.done i ∈ s.workers ∨ Worker.copying i ∈ s.workers := by
  cases h with
  | copyOk j pre post h =>
    rcases mem_replaced pre post (Worker.copying j) _ _ hd with h1 | h1
    · right
      have hij : i = j := by injection h1
      rw [h, hij]
      exact mem_middle pre post _
    · left; rw [h]; exact h1
  | publish h1 h2 => left; exact hd
  | feederRecv j rest h1 h2 h3 => left; exact hd
  | feederSend j h1 h2 => left; exact hd
  | mainRecv j rest h1 h2 => left; exact hd
  | handOver j pre post h1 h2 h3 h4 =>
    rcases mem_replaced pre post (Worker.failed j) _ _ hd with h5 | h5
    · cases h5
    · left; rw [h4]; exact h5
  | take j rest pre post h1 h2 =>
    rcases mem_replaced pre post Worker.idle _ _ hd with h5 | h5
    · cases h5
    · left; rw [h2]; exact h5
  | fetchFail j pre post h =>
    rcases mem_replaced pre post (Worker.fetching j) _ _ hd with h5 | h5
    · cases h5
    · left; rw [h]; exact h5
  | fetchOk j pre post h =>
    rcases mem_replaced pre post (Worker.fetching j) _ _ hd with h5 | h5
    · cases h5
    · left; rw [h]; exact h5
  | createFail j pre post h =>
    rcases mem_replaced pre post (Worker.creating j) _ _ hd with h5 | h5
    · cases h5
    · left; rw [h]; exact h5
  | createOk j pre post h =>
    rcases mem_replaced pre post (Worker.creating j) _ _ hd with h5 | h5
    · cases h5
    · left; rw [h]; exact h5
  | copyFail j pre post h =>
    rcases mem_replaced pre post (Worker.copying j) _ _ hd with h5 | h5
    · cases h5
    · left; rw [h]; exact h5
  | pushRedo j pre post h1 h2 =>
    rcases mem_replaced pre post (Worker.failed j) _ _ hd with h5 | h5
    · cases h5
    · left; rw [h1]; exact h5
  | pushFinish j pre post h1 h2 =>
    rcases mem_replaced pre post (Worker.done j) _ _ hd with h5 | h5
    · cases h5
    · left; rw [h1]; exact h5

/-- A worker copies the body for `i` only after its `os.Create` for `i` succeeded. -/
theorem step_copying_origin (p : Plan) (s t : Sched) (h : Step p s t) (i : Nat)
    (hd : Worker.copying i ∈ t.workers) :
    Worker.copying i ∈ s.workers ∨ Worker.creating i ∈ s.workers := by
  cases h with
  | createOk j pre post h =>
    rcases mem_replaced pre post (Worker.creating j) _ _ hd with h1 | h1
    · right
      have hij : i = j := by injection h1
      rw [h, hij]
      exact mem_middle pre post _
    · left; rw [h]; exact h1
  | publish h1 h2 => left; exact hd
  | feederRecv j rest h1 h2 h3 => left; exact hd
  | feederSend j h1 h2 => left; exact hd
  | mainRecv j rest h1 h2 => left; exact hd
  | handOver j pre post h1 h2 h3 h4 =>
    rcases mem_replaced pre post (Worker.failed j) _ _ hd with h5 | h5
    · cases h5
    · left; rw [h4]; exact h5
  | take j rest pre post h1 h2 =>
    rcases mem_replaced pre post Worker.idle _ _ hd with h5 | h5
    · cases h5
    · left; rw [h2]; exact h5
  | fetchFail j pre post h =>
    rcases mem_replaced pre post (Worker.fetching j) _ _ hd with h5 | h5
    · cases h5
    · left; rw [h]; exact h5
  | fetchOk j pre post h =>
    rcases mem_replaced pre post (Worker.fetching j) _ _ hd with h5 | h5
    · cases h5
    · left; rw [h]; exact h5
  | createFail j pre post h =>
    rcases mem_replaced pre post (Worker.creating j) _ _ hd with h5 | h5
    · cases h5
    · left; rw [h]; exact h5
  | copyFail j pre post h =>
    rcases mem_replaced pre post (Worker.copying j) _ _ hd with h5 | h5
    · cases h5
    · left; rw [h]; exact h5
  | copyOk j pre post h =>
    rcases mem_replaced pre post (Worker.copying j) _ _ hd with h5 | h5
    · cases h5
    · left; rw [h]; exact h5
  | pushRedo j pre post h1 h2 =>
    rcases mem_replaced pre post (Worker.failed j) _ _ hd with h5 | h5
    · cases h5
    · left; rw [h1]; exact h5
  | pushFinish j pre post h1 h2 =>
    rcases mem_replaced pre post (Worker.done j) _ _ hd with h5 | h5
    · cases h5
    · left; rw [h1]; exact h5

/-- A worker creates the file for `i` only after its request for `i` succeeded. -/
theorem step_creating_origin (p : Plan) (s t : Sched) (h : Step p s t) (i : Nat)
    (hd : Worker.creating i ∈ t.workers) :
    Worker.creating i ∈ s.workers ∨ Worker.fetching i ∈ s.workers := by
  cases h with
  | fetchOk j pre post h =>
    rcases mem_replaced pre post (Worker.fetching j) _ _ hd with h1 | h1
    · right
      have hij : i = j := by injection h1
      rw [h, hij]
      exact mem_middle pre post _
    · left; rw [h]; exact h1
  | publish h1 h2 => left; exact hd
  | feederRecv j rest h1 h2 h3 => left; exact hd
  | feederSend j h1 h2 => left; exact hd
  | mainRecv j rest h1 h2 => left; exact hd
  | handOver j pre post h1 h2 h3 h4 =>
    rcases mem_replaced pre post (Worker.failed j) _ _ hd with h5 | h5
    · cases h5
    · left; rw [h4]; exact h5
  | take j rest pre post h1 h2 =>
    rcases mem_replaced pre post Worker.idle _ _ hd with h5 | h5
    · cases h5
    · left; rw [h2]; exact h5
  | fetchFail j pre post h =>
    rcases mem_replaced pre post (Worker.fetching j) _ _ hd with h5 | h5
    · cases h5
    · left; rw [h]; exact h5
  | createFail j pre post h =>
    rcases mem_replaced pre post (Worker.creating j) _ _ hd with h5 | h5
    · cases h5
    · left; rw [h]; exact h5
  | createOk j pre post h =>
    rcases mem_replaced pre post (Worker.creating j) _ _ hd with h5 | h5
    · cases h5
    · left; rw [h]; exact h5
  | copyFail j pre post h =>
    rcases mem_replaced pre post (Worker.copying j) _ _ hd with h5 | h5
    · cases h5
    · left; rw [h]; exact h5
  | copyOk j pre post h =>
    rcases mem_replaced pre post (Worker.copying j) _ _ hd with h5 | h5
    · cases h5
    · left; rw [h]; exact h5
  | pushRedo j pre post h1 h2 =>
    rcases mem_replaced pre post (Worker.failed j) _ _ hd with h5 | h5
    · cases h5
    · left; rw [h1]; exact h5
  | pushFinish j pre post h1 h2 =>
    rcases mem_replaced pre post (Worker.done j) _ _ hd with h5 | h5
    · cases h5
    · left; rw [h1]; exact h5

theorem heldByFeeder_reachable : Reachable samplePlan heldByFeeder := by
  have h0 : Reachable samplePlan (Sched.init samplePlan) := Reachable.init
  have h1 : Reachable samplePlan
      { next := 1, hand := none, queue := [0], redo := [], workers := [Worker.idle],
        finish := [], received := [] } :=
    Reachable.step _ _ h0 (Step.publish (Sched.init samplePlan) (by decide) (by decide))
  have h2 : Reachable samplePlan
      { next := 1, hand := none, queue := [], redo := [], workers := [Worker.fetching 0],
        finish := [], received := [] } :=
    Reachable.step _ _ h1 (Step.take _ 0 [] [] [] rfl rfl)
  have h3 : Reachable samplePlan
      { next := 1, hand := none, queue := [], redo := [], workers := [Worker.failed 0],
        finish := [], received := [] } :=
    Reachable.step _ _ h2 (Step.fetchFail _ 0 [] [] rfl)
  exact Reachable.step _ _ h3 (Step.handOver _ 0 [] [] (by decide) rfl rfl rfl)

/-! ## The scheduling system: claim -/

/-- C5 as stated fails: with one fragment and one worker the system reaches
a state in which index 0 is in none of the five places (not yet published,
work queue, in flight at a worker, retry channel, completion signals): the
feeder has received it from `redo` and has not yet sent it to `queue`. -/
theorem five_places_miss_feeder :
    Reachable samplePlan heldByFeeder ∧
    heldByFeeder.fivePlaces samplePlan = [] ∧
    ¬ (heldByFeeder.fivePlaces samplePlan).Perm (List.range samplePlan.fragment) := by
  refine ⟨heldByFeeder_reachable, by decide, ?_⟩
  intro h
  have hlen := h.length_eq
  revert hlen
  decide

/-- C5, amended. In every reachable state of the scheduling system every
fragment index in `[0, fragmentCount)` occurs exactly once in exactly one of
six places: not yet published, the work queue, in flight at a worker, the
retry channel, the completion signals sent, or the variable of the feeder
that holds an index between its receipt from the retry channel and its
dispatch to the work queue.  So no index is in the work queue and in the
retry channel at once, and the completion barrier gets at most one signal per
fragment index; a signal is sent only by a worker standing at `finish <- i`,
where a worker arrives only from a successful copy, which it starts only
after a successful create, which it starts only after a successful fetch. -/
theorem sched_invariant (p : Plan) (s : Sched) (h : Reachable p s) :
    (s.places p).Perm (List.range p.fragment) ∧
    (∀ i, ¬ (i ∈ s.queue ∧ i ∈ s.redo)) ∧
    s.signals.Nodup ∧
    (∀ i ∈ s.signals, i < p.fragment) ∧
    (∀ t, Step p s t → t.signals = s.signals ∨
      ∃ i pre post, s.workers = pre ++ Worker.done i :: post ∧ t.signals = s.signals ++ [i]) ∧
    (∀ t i, Step p s t → Worker.done i ∈ t.workers →
      Worker.done i ∈ s.workers ∨ Worker.copying i ∈ s.workers) ∧
    (∀ t i, Step p s t → Worker.copying i ∈ t.workers →
      Worker.copying i ∈ s.workers ∨ Worker.creating i ∈ s.workers) ∧
    (∀ t i, Step p s t → Worker.creating i ∈ t.workers →
      Worker.creating i ∈ s.workers ∨ Worker.fetching i ∈ s.workers) := by
  have hcount := reachable_count p s h
  refine ⟨reachable_perm p s h, ?_, ?_, ?_, fun t ht => step_signals p s t ht,
    fun t i ht => step_done_origin p s t ht i, fun t i ht => step_copying_origin p s t ht i,
    fun t i ht => step_creating_origin p s t ht i⟩
  · rintro i ⟨hq, hr⟩
    have h1 := hcount i
    have h2 := count_range_le_one p.fragment i
    have h3 : 0 < s.queue.count i := List.count_pos_iff.mpr hq
    have h4 : 0 < s.redo.count i := List.count_pos_iff.mpr hr
    rw [count_places] at h1
    omega
  · rw [List.nodup_iff_count_le_one]
    intro a
    have h1 := hcount a
    have h2 := count_range_le_one p.fragment a
    rw [count_places] at h1
    simp only [Sched.signals, List.count_append]
    omega
  · intro i hi
    have h1 := hcount i
    have h3 : 0 < s.signals.count i := List.count_pos_iff.mpr hi
    have h4 : 0 < (List.range p.fragment).count i := by
      rw [count_places] at h1
      simp only [Sched.signals, List.count_append] at h3
      omega
    exact List.mem_range.mp (List.count_pos_iff.mp h4)

/-- C5, amended, at the state in which the feeder holds index 0: the six
places hold exactly the index 0, and no signal has been sent. -/
theorem sched_invariant_witness :
    Reachable samplePlan heldByFeeder ∧
    (heldByFeeder.places samplePlan).Perm (List.range 1) ∧ heldByFeeder.signals.Nodup :=
  ⟨heldByFeeder_reachable, (sched_invariant samplePlan heldByFeeder heldByFeeder_reachable).1,
   (sched_invariant samplePlan heldByFeeder heldByFeeder_reachable).2.2.1⟩

end Filedown
